import Mathlib

/-!
Verification of the secsgml SEC-SGML parser (Rust) against its
natural-language specification.

Bytes are modelled as natural numbers (values < 256 where it matters, with
explicit `% 256` wherever the Rust performs wrapping `u8` arithmetic);
byte slices as `List Nat`; Rust `String`/`&str` values as `List Char` or
Lean `String`.  Fallible Rust functions returning `Result`/`Option`, and
functions that can panic, are modelled with `Except`/`Option`.

Rust `HashMap` values are modelled as association lists whose list order
models the (unspecified) iteration order of the hash map; map equality is
key-wise lookup equality.  `memmem`/`memchr` searches are modelled by a
first-occurrence search on lists.
-/

set_option maxHeartbeats 1600000
set_option maxRecDepth 4000

namespace Secsgml

/-! ## Byte-level utilities (src/parse.rs, src/uudecode.rs) -/

/-- ASCII whitespace set used by `trim_start`/`trim_end`/`trim` in
src/parse.rs and by the local `trim_start` of src/uudecode.rs:
space, tab, LF, CR. -/
def isWsByte (b : Nat) : Bool :=
  b == 32 || b == 9 || b == 10 || b == 13

/-- `trim_start` (src/parse.rs line 584, identical to src/uudecode.rs
line 195): drop leading ASCII whitespace bytes. -/
def trim_start (data : List Nat) : List Nat :=
  data.dropWhile isWsByte

/-- `trim_end` (src/parse.rs line 590): drop trailing ASCII whitespace. -/
def trim_end (data : List Nat) : List Nat :=
  (data.reverse.dropWhile isWsByte).reverse

/-- `trim` (src/parse.rs line 596). -/
def trim (data : List Nat) : List Nat :=
  trim_end (trim_start data)

/-- Model of `memchr::memmem::find` / `Finder::find`: index of the first
occurrence of `pat` as a contiguous sub-slice of `data`. -/
def memFind (pat : List Nat) : List Nat → Option Nat
  | [] => if pat = [] then some 0 else none
  | b :: rest =>
      if pat.isPrefixOf (b :: rest) then some 0
      else (memFind pat rest).map (· + 1)

/-- Model of `memchr::memchr b data`: index of first occurrence of byte. -/
def memchrByte (b : Nat) : List Nat → Option Nat
  | [] => none
  | x :: rest => if x = b then some 0 else (memchrByte b rest).map (· + 1)

theorem memFind_le_length {pat l : List Nat} {i : Nat}
    (h : memFind pat l = some i) : i + pat.length ≤ l.length := by
  induction l generalizing i with
  | nil =>
      simp only [memFind] at h
      split at h
      · cases h
        simp_all
      · exact absurd h (by simp)
  | cons b rest ih =>
      simp only [memFind] at h
      split at h
      · cases h
        have hp : pat.isPrefixOf (b :: rest) := ‹_›
        have := (List.isPrefixOf_iff_prefix.mp hp).length_le
        simpa using this
      · cases hmf : memFind pat rest with
        | none => simp [hmf] at h
        | some j =>
            simp [hmf] at h
            subst h
            have := ih hmf
            simp only [List.length_cons]
            omega

/-! ## UU codec (src/uudecode.rs) -/

/-- `UuDecodeError` (src/uudecode.rs lines 6-10). -/
inductive UuDecodeError where
  | illegalChar
  | trailingGarbage
deriving DecidableEq, Repr

/-- The `while remaining > 0` loop of `a2b_uu` (src/uudecode.rs lines
45-73).  The Rust reads `data[ascii_idx]` and increments `ascii_idx`
(using 0 bits past the end of the input); we model the sequential reads
by consuming the list `rest`.  `u32` bit operations are written
arithmetically: `leftchar << 6 | this_ch` is `leftchar * 64 + ch` (the
low 6 bits are free and `ch < 64`), `(leftchar >> leftbits) & 0xff` is
`lc / 2 ^ leftbits % 256`, and `leftchar & ((1 << leftbits) - 1)` is
`lc % 2 ^ leftbits`.  Bytes pushed into `bin_data` are accumulated in
`acc`. -/
def a2bLoop (remaining leftbits leftchar : Nat) (rest acc : List Nat) :
    Except UuDecodeError (List Nat) :=
  if remaining = 0 then .ok acc
  else
    match rest with
    | [] =>
        if 8 ≤ leftbits + 6 then
          a2bLoop (remaining - 1) (leftbits + 6 - 8)
            (leftchar * 64 % 2 ^ (leftbits + 6 - 8)) []
            (acc ++ [leftchar * 64 / 2 ^ (leftbits + 6 - 8) % 256])
        else a2bLoop remaining (leftbits + 6) (leftchar * 64) [] acc
    | b :: rest' =>
        if ¬ (b = 10 ∨ b = 13) ∧ (b < 32 ∨ 32 + 64 < b) then
          .error .illegalChar
        else
          let ch := if b = 10 ∨ b = 13 then 0 else (b - 32) % 64
          if 8 ≤ leftbits + 6 then
            a2bLoop (remaining - 1) (leftbits + 6 - 8)
              ((leftchar * 64 + ch) % 2 ^ (leftbits + 6 - 8)) rest'
              (acc ++ [(leftchar * 64 + ch) / 2 ^ (leftbits + 6 - 8) % 256])
          else a2bLoop remaining (leftbits + 6) (leftchar * 64 + ch) rest' acc
termination_by 2 * remaining - (if 2 ≤ leftbits then 1 else 0)
decreasing_by
  · split <;> split <;> omega
  · split <;> split <;> omega
  · split <;> split <;> omega
  · split <;> split <;> omega

/-- `a2b_uu` (src/uudecode.rs lines 30-89): strict single-line UU decoder.
`bin_len` is `(data[0].wrapping_sub(b' ')) & 0o77`; after the main loop
the bytes past the minimally required `1 + ⌈8·bin_len/6⌉` characters must
all be space, backtick, LF or CR, otherwise `TrailingGarbage`. -/
def a2b_uu (data : List Nat) : Except UuDecodeError (List Nat) :=
  match data with
  | [] => .ok []
  | b0 :: rest =>
      let binLen := ((b0 + 256 - 32) % 256) % 64
      match a2bLoop binLen 0 0 rest [] with
      | .error e => .error e
      | .ok binData =>
          let charsNeeded := (binLen * 8 + 5) / 6
          let startCheck := 1 + charsNeeded
          if ((b0 :: rest).drop startCheck).all
              (fun b => b == 32 || b == 32 + 64 || b == 10 || b == 13) then
            .ok binData
          else .error .trailingGarbage

/-- `check_begin_line` (src/uudecode.rs lines 111-124): starts with
`"begin "`, at least 11 bytes (`"begin XXX f"`), and bytes 6..8 are ASCII
digits; the Rust early returns are rendered as an `&&` chain.  Note: it
is applied to a whole (trimmed) byte suffix of the content, not to a
single line, so `line.len() >= 11` may be satisfied by bytes on later
lines. -/
def check_begin_line (line : List Nat) : Bool :=
  [98, 101, 103, 105, 110, 32].isPrefixOf line
    && decide (11 ≤ line.length)
    && ((line.drop 6).take 3).all (fun b => 48 ≤ b && b ≤ 57)

/-- `is_uuencoded` (src/uudecode.rs lines 92-109). -/
def is_uuencoded (content : List Nat) : Bool :=
  let c := trim_start content
  if check_begin_line c then true
  else
    match memchrByte 10 c with
    | some p => check_begin_line (c.drop (p + 1))
    | none => false

/-- The character filter of `decode_uu_line` (src/uudecode.rs line 176):
keep characters with codepoint in `[32, 95]`. -/
def uuLineKeep (c : Char) : Bool :=
  32 ≤ c.toNat && c.toNat ≤ 95

/-- `decode_uu_line` (src/uudecode.rs lines 174-192): lenient per-line
decoder.  Characters outside `[32, 95]` are dropped, then only
`1 + (4·n + 5)/3` characters are passed to the strict `a2b_uu` (all
remaining characters are ASCII, so `as_bytes` is the codepoint map). -/
def decode_uu_line (line : List Char) : Option (List Nat) :=
  let cleanLine := line.filter uuLineKeep
  match cleanLine with
  | [] => none
  | c0 :: _ =>
      let expectedBytes := (c0.toNat - 32) % 64
      let nbytes := (expectedBytes * 4 + 5) / 3
      let truncated := cleanLine.take (nbytes + 1)
      match a2b_uu (truncated.map Char.toNat) with
      | .ok v => some v
      | .error _ => none

/-! ## Spec-side definitions for claim C4 -/

/-- The claim's per-line reading of UU detection: a LINE of the form
`begin DDD f…` — it starts with `"begin "`, has three ASCII digits at
offsets 6..8, and at least one filename character follows, all within
the single line. -/
def specBeginLineClaim (line : List Nat) : Bool :=
  [98, 101, 103, 105, 110, 32].isPrefixOf line
    && decide (11 ≤ line.length)
    && ((line.drop 6).take 3).all (fun b => 48 ≤ b && b ≤ 57)

/-- The claim's detection predicate: after trimming leading ASCII
whitespace, the first line or the second line (bytes up to the next LF)
matches the `begin DDD f…` form. -/
def claimUuDetect (content : List Nat) : Bool :=
  let t := trim_start content
  let l1 := t.takeWhile (fun b => b != 10)
  let rest := (t.dropWhile (fun b => b != 10)).drop 1
  let l2 := rest.takeWhile (fun b => b != 10)
  specBeginLineClaim l1 || specBeginLineClaim l2

/-- What `check_begin_line` accepts, as a proposition. -/
def beginSuffixOk (l : List Nat) : Prop :=
  [98, 101, 103, 105, 110, 32] <+: l ∧ 11 ≤ l.length ∧
    ∀ b ∈ (l.drop 6).take 3, 48 ≤ b ∧ b ≤ 57

/-- C4 (amended), the code's actual detection condition: after trimming
leading ASCII whitespace, the content itself, or its suffix starting
right after the first LF, begins with `"begin "`, has at least 11 bytes
from that point on (possibly spanning several lines), and has ASCII
digits at offsets 6..8. -/
def uuDetectAmended (content : List Nat) : Prop :=
  beginSuffixOk (trim_start content) ∨
    ∃ pre suf, trim_start content = pre ++ 10 :: suf ∧ 10 ∉ pre ∧ beginSuffixOk suf

/-! ## Key standardizer (src/header_mappings.rs) -/

/-- Rust `char::to_ascii_lowercase`. -/
def toAsciiLower (c : Char) : Char :=
  if 'A' ≤ c ∧ c ≤ 'Z' then Char.ofNat (c.toNat + 32) else c

/-- Rust `char::is_whitespace`: the Unicode White_Space property
(code points 0x09–0x0D, 0x20, 0x85, 0xA0, 0x1680, 0x2000–0x200A,
0x2028, 0x2029, 0x202F, 0x205F, 0x3000). -/
def rustIsWhitespace (c : Char) : Bool :=
  decide ((9 ≤ c.toNat ∧ c.toNat ≤ 13) ∨ c.toNat = 32 ∨ c.toNat = 133 ∨
    c.toNat = 160 ∨ c.toNat = 5760 ∨ (8192 ≤ c.toNat ∧ c.toNat ≤ 8202) ∨
    c.toNat = 8232 ∨ c.toNat = 8233 ∨ c.toNat = 8239 ∨ c.toNat = 8287 ∨
    c.toNat = 12288)

/-- Rust `str::eq_ignore_ascii_case` (byte-for-byte comparison after
ASCII lowercasing; at char level this is lowercased equality). -/
def eqIgnoreAsciiCase (a b : List Char) : Bool :=
  a.map toAsciiLower == b.map toAsciiLower

/-- `str::find` for a literal pattern, as an index into the char list. -/
def strFind (pat : List Char) : List Char → Option Nat
  | [] => if pat = [] then some 0 else none
  | c :: rest =>
      if pat.isPrefixOf (c :: rest) then some 0
      else (strFind pat rest).map (· + 1)

/-- Rust `str::contains` with a literal pattern. -/
def strContains (s pat : String) : Bool :=
  (strFind pat.toList s.toList).isSome

/-- The `HEADER_MAPPINGS` table (src/header_mappings.rs lines 26-96):
entries `(source key, standardized key, optional regex pattern)`.  The
process-wide `HashMap` is modelled as this list; all source keys are
distinct lowercase strings, so at most one entry matches a
case-insensitive lookup and the hash-map iteration order is
irrelevant. -/
def headerMappings : List (String × String × Option String) :=
  [("paper", "paper", none),
   ("accession number", "accession-number", none),
   ("conformed submission type", "type", none),
   ("public document count", "public-document-count", none),
   ("public-document_count", "public-document-count", none),
   ("conformed period of report", "period", none),
   ("filed as of date", "filing-date", none),
   ("date as of change", "date-of-filing-date-change", none),
   ("effectiveness date", "effectiveness-date", none),
   ("filer", "filer", none),
   ("company data", "company-data", none),
   ("company conformed name", "conformed-name", none),
   ("central index key", "cik", none),
   ("state of incorporation", "state-of-incorporation", none),
   ("fiscal year end", "fiscal-year-end", none),
   ("filing values", "filing-values", none),
   ("form type", "form-type", none),
   ("sec act", "act", some "(?:\\d\x7b2\x7d)(\\d\x7b2\x7d)\\s+Act"),
   ("sec file number", "file-number", none),
   ("film number", "film-number", none),
   ("business address", "business-address", none),
   ("street 1", "street1", none),
   ("street 2", "street2", none),
   ("city", "city", none),
   ("state", "state", none),
   ("zip", "zip", none),
   ("business phone", "phone", none),
   ("mail address", "mail-address", none),
   ("former company", "former-company", none),
   ("former conformed name", "former-conformed-name", none),
   ("date of name change", "date-changed", none),
   ("sros", "sros", none),
   ("subject company", "subject-company", none),
   ("standard industrial classification", "assigned-sic", some "\\[(\\d+)\\]"),
   ("irs number", "irs-number", none),
   ("filed by", "filed-by", none),
   ("items", "items", none),
   ("group members", "group-members", none),
   ("organization name", "organization-name", none),
   ("recieved date", "recieved-date", none),
   ("action date", "action-date", none),
   ("non us state territory", "non-us-state-territory", none),
   ("address is a non us location", "address-is-a-non-us-location", none),
   ("ein", "ein", none),
   ("class-contract-ticker-symbol", "class-contract-ticker-symbol", none),
   ("class-contract-name", "class-contract-name", none),
   ("class-contract-id", "class-contract-id", none),
   ("sec-document", "sec-document", none),
   ("sec-header", "sec-header", none),
   ("acceptance-datetime", "acceptance-datetime", none),
   ("series-and-classes-contracts-data", "series-and-classes-contracts-data", none),
   ("existing-series-and-classes-contracts", "existing-series-and-classes-contracts", none),
   ("merger-series-and-classes-contracts", "merger-series-and-classes-contracts", none),
   ("new-series-and-classes-contracts", "new-series-and-classes-contracts", none),
   ("series", "series", none),
   ("owner-cik", "owner-cik", none),
   ("series-id", "series-id", none),
   ("series-name", "series-name", none),
   ("acquiring-data", "acquiring-data", none),
   ("target-data", "target-data", none),
   ("new-classes-contracts", "new-classes-contracts", none),
   ("new-series", "new-series", none),
   ("relationship", "relationship", none)]

/-- One step of the miss-path loop of `standardize_key`
(src/header_mappings.rs lines 113-124).  State: `(result, prev_was_space)`.
A whitespace char pushes `'-'` only when the previous char was not
whitespace AND the result is non-empty (so leading whitespace produces
nothing); a non-whitespace char pushes its ASCII lowercase form. -/
def stdStep (st : List Char × Bool) (c : Char) : List Char × Bool :=
  if rustIsWhitespace c then
    (if st.2 = false ∧ st.1 ≠ [] then st.1 ++ ['-'] else st.1, true)
  else (st.1 ++ [toAsciiLower c], false)

/-- `standardize_key` (src/header_mappings.rs lines 99-127):
case-insensitive table lookup; on a miss, the lowercase/collapse
transform implemented by `stdStep`. -/
def standardize_key (key : String) : String :=
  match headerMappings.find? (fun e => eqIgnoreAsciiCase key.toList e.1.toList) with
  | some e => e.2.1
  | none => String.mk ((key.toList.foldl stdStep ([], false)).1)

/-- `transform_value`, inner pattern dispatch (src/header_mappings.rs
lines 134-158): the `" Act"` two-digit extraction, then the
`[digits]` extraction, then the unchanged value. -/
def transformWithPattern (pat : String) (v : List Char) : String :=
  let actResult : Option (List Char) :=
    if strContains pat "Act" then
      match strFind [' ', 'A', 'c', 't'] v with
      | some actPos =>
          if 2 ≤ actPos then
            let potential := (v.drop (actPos - 2)).take 2
            if potential.all Char.isDigit then some potential else none
          else none
      | none => none
    else none
  match actResult with
  | some r => String.mk r
  | none =>
      let brResult : Option (List Char) :=
        if strContains pat "\\[" then
          match strFind ['['] v, strFind [']'] v with
          | some bstart, some bend =>
              if bstart + 1 < bend then
                let inner := (v.drop (bstart + 1)).take (bend - (bstart + 1))
                if inner.all Char.isDigit then some inner else none
              else none
          | _, _ => none
        else none
      match brResult with
      | some r => String.mk r
      | none => String.mk v

/-- `transform_value` (src/header_mappings.rs lines 129-163).  Rust
lowercases the key with Unicode `str::to_lowercase`; on ASCII (which
covers every table key) that is ASCII lowercasing, which is what we
model. -/
def transform_value (key value : String) : String :=
  let keyLower := String.mk (key.toList.map toAsciiLower)
  match headerMappings.find? (fun e => e.1 == keyLower) with
  | some (_, _, some pat) => transformWithPattern pat value.toList
  | _ => value

/-! ## UTF-8 and string utilities

Rust strings are UTF-8 byte sequences; we model `String`/`&str` as
`List Char` (with `String.mk` wrappers) and model the byte length and
the UTF-8 encode/decode steps explicitly. -/

/-- UTF-8 encoding of one scalar value. -/
def utf8EncodeChar (c : Char) : List Nat :=
  let n := c.toNat
  if n < 128 then [n]
  else if n < 2048 then [192 + n / 64, 128 + n % 64]
  else if n < 65536 then [224 + n / 4096, 128 + n / 64 % 64, 128 + n % 64]
  else [240 + n / 262144, 128 + n / 4096 % 64, 128 + n / 64 % 64, 128 + n % 64]

/-- UTF-8 encoding of a string (Rust `String::into_bytes` / `as_bytes`). -/
def utf8Encode (s : List Char) : List Nat :=
  (s.map utf8EncodeChar).flatten

/-- Number of UTF-8 bytes of one char (Rust `char::len_utf8`). -/
def charUtf8Len (c : Char) : Nat :=
  (utf8EncodeChar c).length

/-- Byte length of a string (Rust `str::len`). -/
def utf8Len (s : List Char) : Nat :=
  (s.map charUtf8Len).sum

/-- UTF-8 continuation byte. -/
def isCont (b : Nat) : Bool :=
  128 ≤ b && b ≤ 191

/-- One step of strict UTF-8 decoding (Rust `std::str::from_utf8`):
given the lead byte and the remaining bytes, the decoded character and
the rest, rejecting overlong forms, surrogates and values above
U+10FFFF via the standard lead/second byte constraints. -/
def utf8DecodeOne (b : Nat) (bs : List Nat) : Option (Char × List Nat) :=
  if b < 128 then some (Char.ofNat b, bs)
  else if 194 ≤ b ∧ b ≤ 223 then
    match bs with
    | b2 :: rest =>
        if isCont b2 then
          some (Char.ofNat ((b - 192) * 64 + (b2 - 128)), rest)
        else none
    | [] => none
  else if 224 ≤ b ∧ b ≤ 239 then
    match bs with
    | b2 :: b3 :: rest =>
        if (if b = 224 then 160 ≤ b2 && b2 ≤ 191
            else if b = 237 then 128 ≤ b2 && b2 ≤ 159
            else isCont b2) && isCont b3 then
          some (Char.ofNat ((b - 224) * 4096 + (b2 - 128) * 64 + (b3 - 128)),
            rest)
        else none
    | _ => none
  else if 240 ≤ b ∧ b ≤ 244 then
    match bs with
    | b2 :: b3 :: b4 :: rest =>
        if (if b = 240 then 144 ≤ b2 && b2 ≤ 191
            else if b = 244 then 128 ≤ b2 && b2 ≤ 143
            else isCont b2) && isCont b3 && isCont b4 then
          some (Char.ofNat ((b - 240) * 262144 + (b2 - 128) * 4096 +
            (b3 - 128) * 64 + (b4 - 128)), rest)
        else none
    | _ => none
  else none

/-- Strict UTF-8 decoding, fuel-driven (each step consumes at least the
lead byte, so `fuel = length` always suffices). -/
def utf8DecodeGo : Nat → List Nat → Option (List Char)
  | _, [] => some []
  | 0, _ :: _ => none
  | fuel + 1, b :: bs =>
      match utf8DecodeOne b bs with
      | some (c, rest) => (utf8DecodeGo fuel rest).map (fun cs => c :: cs)
      | none => none

/-- Strict UTF-8 decoding (Rust `std::str::from_utf8`). -/
def utf8Decode? (l : List Nat) : Option (List Char) :=
  utf8DecodeGo l.length l

/-- Lossy UTF-8 decoding (Rust `String::from_utf8_lossy`): each maximal
invalid subpart becomes one U+FFFD replacement character. -/
def utf8LossyDecode : List Nat → List Char
  | [] => []
  | b :: bs =>
      if b < 128 then Char.ofNat b :: utf8LossyDecode bs
      else if 194 ≤ b ∧ b ≤ 223 then
        match bs with
        | b2 :: rest =>
            if isCont b2 then
              Char.ofNat ((b - 192) * 64 + (b2 - 128)) :: utf8LossyDecode rest
            else Char.ofNat 65533 :: utf8LossyDecode (b2 :: rest)
        | [] => [Char.ofNat 65533]
      else if 224 ≤ b ∧ b ≤ 239 then
        match bs with
        | b2 :: b3 :: rest =>
            if (if b = 224 then 160 ≤ b2 && b2 ≤ 191
                else if b = 237 then 128 ≤ b2 && b2 ≤ 159
                else isCont b2) then
              if isCont b3 then
                Char.ofNat ((b - 224) * 4096 + (b2 - 128) * 64 + (b3 - 128)) ::
                  utf8LossyDecode rest
              else Char.ofNat 65533 :: utf8LossyDecode (b3 :: rest)
            else Char.ofNat 65533 :: utf8LossyDecode (b2 :: b3 :: rest)
        | [b2] =>
            if (if b = 224 then 160 ≤ b2 && b2 ≤ 191
                else if b = 237 then 128 ≤ b2 && b2 ≤ 159
                else isCont b2) then [Char.ofNat 65533]
            else Char.ofNat 65533 :: utf8LossyDecode [b2]
        | [] => [Char.ofNat 65533]
      else if 240 ≤ b ∧ b ≤ 244 then
        match bs with
        | b2 :: b3 :: b4 :: rest =>
            if (if b = 240 then 144 ≤ b2 && b2 ≤ 191
                else if b = 244 then 128 ≤ b2 && b2 ≤ 143
                else isCont b2) then
              if isCont b3 then
                if isCont b4 then
                  Char.ofNat ((b - 240) * 262144 + (b2 - 128) * 4096 +
                    (b3 - 128) * 64 + (b4 - 128)) :: utf8LossyDecode rest
                else Char.ofNat 65533 :: utf8LossyDecode (b4 :: rest)
              else Char.ofNat 65533 :: utf8LossyDecode (b3 :: b4 :: rest)
            else Char.ofNat 65533 :: utf8LossyDecode (b2 :: b3 :: b4 :: rest)
        | b2 :: b3 :: rest =>
            if (if b = 240 then 144 ≤ b2 && b2 ≤ 191
                else if b = 244 then 128 ≤ b2 && b2 ≤ 143
                else isCont b2) then
              if isCont b3 then [Char.ofNat 65533]
              else Char.ofNat 65533 :: utf8LossyDecode (b3 :: rest)
            else Char.ofNat 65533 :: utf8LossyDecode (b2 :: b3 :: rest)
        | [b2] =>
            if (if b = 240 then 144 ≤ b2 && b2 ≤ 191
                else if b = 244 then 128 ≤ b2 && b2 ≤ 143
                else isCont b2) then [Char.ofNat 65533]
            else Char.ofNat 65533 :: utf8LossyDecode [b2]
        | [] => [Char.ofNat 65533]
      else Char.ofNat 65533 :: utf8LossyDecode bs

/-- `bytes_to_string` (src/parse.rs lines 573-581): UTF-8 if valid, else
the Latin-1 lift (every byte mapped to its code point). -/
def bytes_to_string (data : List Nat) : String :=
  match utf8Decode? data with
  | some s => String.mk s
  | none => String.mk (data.map Char.ofNat)

/-- The byte-to-text step of `decode_uuencoded` (src/uudecode.rs lines
136-139): UTF-8 if valid, else `String::from_utf8_lossy`. -/
def uuBytesToText (content : List Nat) : List Char :=
  match utf8Decode? content with
  | some s => s
  | none => utf8LossyDecode content

/-- Split a char list at every LF, keeping empty segments. -/
def splitNl : List Char → List (List Char)
  | [] => [[]]
  | c :: cs =>
      if c = '\n' then [] :: splitNl cs
      else
        match splitNl cs with
        | s :: ss => (c :: s) :: ss
        | [] => [[c]]

/-- Strip a single trailing CR (what Rust `str::lines` does per line). -/
def stripOneCR (l : List Char) : List Char :=
  if l.getLast? = some '\r' then l.dropLast else l

/-- Rust `str::lines`: split at LF, drop a final empty segment, strip one
trailing CR per line. -/
def rustLines (s : List Char) : List (List Char) :=
  let segs := splitNl s
  (if segs.getLast? = some [] then segs.dropLast else segs).map stripOneCR

/-- Rust `trim_end_matches('\r')`: drop every trailing CR. -/
def stripTrailingCRs (l : List Char) : List Char :=
  (l.reverse.dropWhile (· = '\r')).reverse

/-- Rust `str::trim` (Unicode whitespace on both ends). -/
def trimChars (l : List Char) : List Char :=
  ((l.dropWhile rustIsWhitespace).reverse.dropWhile rustIsWhitespace).reverse

/-- Rust `str::trim_end` (Unicode whitespace at the end). -/
def trimEndChars (l : List Char) : List Char :=
  (l.reverse.dropWhile rustIsWhitespace).reverse

/-- ASCII whitespace on chars (the byte-level `trim` of src/parse.rs
applied to a string's bytes). -/
def isWsChar (c : Char) : Bool :=
  isWsByte c.toNat

/-- Byte-level `trim` lifted to chars. -/
def asciiTrimChars (l : List Char) : List Char :=
  ((l.dropWhile isWsChar).reverse.dropWhile isWsChar).reverse

/-! ## decode_uuencoded (src/uudecode.rs lines 132-170) -/

/-- The `for line in lines.by_ref()` begin-scan: drop lines until one
starts with `"begin"`; return the remaining lines, or `none` when no
begin line exists. -/
def findBeginLine : List (List Char) → Option (List (List Char))
  | [] => none
  | l :: ls =>
      if ['b', 'e', 'g', 'i', 'n'].isPrefixOf l then some ls
      else findBeginLine ls

/-- The data-line loop of `decode_uuencoded`: stop at an empty line or
`"end"`, concatenate each line's decoded bytes, skip undecodable lines. -/
def processUuDataLines : List (List Char) → List Nat
  | [] => []
  | l :: ls =>
      let stripped := stripTrailingCRs l
      if stripped = [] ∨ stripped = ['e', 'n', 'd'] then []
      else
        match decode_uu_line stripped with
        | some d => d ++ processUuDataLines ls
        | none => processUuDataLines ls

/-- `decode_uuencoded` (src/uudecode.rs lines 132-170). -/
def decode_uuencoded (content : List Nat) : List Nat :=
  match findBeginLine (rustLines (uuBytesToText content)) with
  | none => []
  | some rest => processUuDataLines rest

/-! ## Spec-modelled UU encoder (claim C7)

The repository ships no encoder; the following definitions model "the
standard UU algorithm" the spec's round-trip sentence refers to (begin
line, count-prefixed data lines of 1-45 bytes, sentinel, `end` line),
with the historical space-for-zero alphabet `32 + v`. -/

/-- Modelled from the spec: the uuencode character of a six-bit value,
`32 + v` (spec §4.C: a character's value is `(c - 32) & 0x3F`). -/
def uuEncChar (v : Nat) : Char :=
  Char.ofNat (32 + v % 64)

/-- Modelled from the spec: the standard 3-byte-to-4-character groups,
the last group zero-padded to full width (S5: `"Cat"` -> `0V%T`). -/
def uuGroups : List Nat → List Char
  | [] => []
  | [a] => [uuEncChar (a / 4), uuEncChar (a % 4 * 16), uuEncChar 0, uuEncChar 0]
  | [a, b] => [uuEncChar (a / 4), uuEncChar (a % 4 * 16 + b / 16),
      uuEncChar (b % 16 * 4), uuEncChar 0]
  | a :: b :: c :: rest =>
      uuEncChar (a / 4) :: uuEncChar (a % 4 * 16 + b / 16) ::
        uuEncChar (b % 16 * 4 + c / 64) :: uuEncChar (c % 64) :: uuGroups rest

/-- The group characters without the final padding: what the decoder
must actually consume. -/
def uuGroupsMin : List Nat → List Char
  | [] => []
  | [a] => [uuEncChar (a / 4), uuEncChar (a % 4 * 16)]
  | [a, b] => [uuEncChar (a / 4), uuEncChar (a % 4 * 16 + b / 16),
      uuEncChar (b % 16 * 4)]
  | a :: b :: c :: rest =>
      uuEncChar (a / 4) :: uuEncChar (a % 4 * 16 + b / 16) ::
        uuEncChar (b % 16 * 4 + c / 64) :: uuEncChar (c % 64) :: uuGroupsMin rest

/-- The zero padding of the last group. -/
def uuPad : List Nat → List Char
  | [] => []
  | [_] => [uuEncChar 0, uuEncChar 0]
  | [_, _] => [uuEncChar 0]
  | _ :: _ :: _ :: rest => uuPad rest

/-- Modelled from the spec: one data line — the count character `32 + n`
followed by the encoded groups. -/
def uuLine (chunk : List Nat) : List Char :=
  uuEncChar chunk.length :: uuGroups chunk

/-- 45-byte chunking (fuel-driven structural recursion). -/
def uuChunksGo : Nat → List Nat → List (List Nat)
  | 0, _ => []
  | _ + 1, [] => []
  | fuel + 1, b :: rest => (b :: rest.take 44) :: uuChunksGo fuel (rest.drop 44)

/-- The 45-byte chunks of a byte string. -/
def uuChunks (l : List Nat) : List (List Nat) :=
  uuChunksGo l.length l

/-- `'\n'`-terminated lines, concatenated. -/
def joinLines (ls : List (List Char)) : List Char :=
  (ls.map (fun l => l ++ ['\n'])).flatten

/-- Modelled from the spec: the standard UU encoding, as text — begin
line, one count-prefixed line per 45-byte chunk, backtick sentinel,
`end` line (S5). -/
def uuencodeText (b : List Nat) : List Char :=
  joinLines (["begin 644 file".toList] ++ (uuChunks b).map uuLine ++
    [['\x60'], ['e', 'n', 'd']])

/-- The encoding as bytes (the text is pure ASCII). -/
def uuencode (b : List Nat) : List Nat :=
  utf8Encode (uuencodeText b)

/-! ## Data types (src/types.rs) -/

/-- `SubmissionFormat` (src/types.rs lines 7-13). -/
inductive SubmissionFormat where
  | tabPrivacy
  | tabDefault
  | archive
deriving DecidableEq, Repr

/-- `MetadataValue` (src/types.rs lines 16-22).  The `HashMap` in the
`Object` variant is modelled as an association list in iteration
order. -/
inductive MetadataValue where
  | str : String → MetadataValue
  | list : List MetadataValue → MetadataValue
  | obj : List (String × MetadataValue) → MetadataValue
deriving Repr

/-- `DocumentMetadata` (src/types.rs lines 62-75). -/
structure DocumentMetadata where
  fields : List (String × String)
  size_bytes : Nat
  start_byte : Option String
  end_byte : Option String
deriving Repr, DecidableEq

instance : Inhabited DocumentMetadata :=
  ⟨⟨[], 0, none, none⟩⟩

/-- `SubmissionMetadata` (src/types.rs lines 92-98). -/
structure SubmissionMetadata where
  fields : List (String × MetadataValue)
  documents : List DocumentMetadata
deriving Repr

/-- `ParseOptions` (src/types.rs lines 101-109; the `parallel` flag is
used by src/lib.rs and src/parse.rs). -/
structure ParseOptions where
  filter_document_types : List String
  keep_filtered_metadata : Bool
  standardize_metadata : Bool
  parallel : Bool
deriving Repr

/-- `ParseError` (src/error.rs lines 5-21); the `Io` variant only arises
from external collaborators. -/
inductive ParseError where
  | ioError
  | invalidStructure : String → ParseError
  | encodingError
  | uuError : String → ParseError
  | jsonError
deriving Repr, DecidableEq

/-- `ParsedSubmission` (src/types.rs lines 131-138). -/
structure ParsedSubmission where
  metadata : SubmissionMetadata
  documents : List (List Nat)
  format : SubmissionFormat
deriving Repr

instance : Inhabited ParsedSubmission :=
  ⟨⟨⟨[], []⟩, [], .archive⟩⟩

/-- Byte sequence of an ASCII string literal (used to state concrete
inputs). -/
def strBytes (s : String) : List Nat :=
  s.toList.map Char.toNat

/-- `HashMap::get` on the metadata map model: first (unique) key match. -/
def lookupMV : List (String × MetadataValue) → String → Option MetadataValue
  | [], _ => none
  | e :: rest, k => if e.1 = k then some e.2 else lookupMV rest k

/-- In-place value replacement at an existing key (`get_mut` + assign). -/
def updateMV : List (String × MetadataValue) → String → MetadataValue →
    List (String × MetadataValue)
  | [], _, _ => []
  | e :: rest, k, v => if e.1 = k then (k, v) :: rest else e :: updateMV rest k v

/-- `HashMap::insert` on the metadata map model: replace-or-append. -/
def mapInsertMV (m : List (String × MetadataValue)) (k : String)
    (v : MetadataValue) : List (String × MetadataValue) :=
  match lookupMV m k with
  | some _ => updateMV m k v
  | none => m ++ [(k, v)]

/-- `HashMap::get` on a string-to-string map model. -/
def lookupS : List (String × String) → String → Option String
  | [], _ => none
  | e :: rest, k => if e.1 = k then some e.2 else lookupS rest k

/-- `HashMap::insert` on a string-to-string map model. -/
def mapInsertS : List (String × String) → String → String →
    List (String × String)
  | [], k, v => [(k, v)]
  | e :: rest, k, v => if e.1 = k then (k, v) :: rest else e :: mapInsertS rest k v

/-! ## Core parser (src/parse.rs) -/

/-- `insert_or_append` (src/parse.rs lines 454-471): duplicate keys are
promoted — an existing list is appended to, any other existing value
becomes the two-element list `[old, new]`. -/
def insert_or_append (map : List (String × MetadataValue)) (key : String)
    (v : MetadataValue) : List (String × MetadataValue) :=
  match lookupMV map key with
  | some (.list l) => updateMV map key (.list (l ++ [v]))
  | some old => updateMV map key (.list [old, v])
  | none => map ++ [(key, v)]

/-- `insert_at_path` (src/parse.rs lines 416-451): navigate nested
objects along `path` (descending into the last element of a list when it
is an object), then `insert_or_append`; when navigation fails nothing is
inserted. -/
def insert_at_path (root : List (String × MetadataValue)) (path : List String)
    (key : String) (v : MetadataValue) : List (String × MetadataValue) :=
  match path with
  | [] => insert_or_append root key v
  | p :: rest =>
      match lookupMV root p with
      | some (.obj o) => updateMV root p (.obj (insert_at_path o rest key v))
      | some (.list l) =>
          match l.getLast? with
          | some (.obj o) =>
              updateMV root p (.list (l.dropLast ++ [.obj (insert_at_path o rest key v)]))
          | _ => root
      | _ => root

/-- Slice split at a byte (Rust `slice::split(|&b| b == b)`), keeping
empty segments. -/
def splitOnByte (b : Nat) : List Nat → List (List Nat)
  | [] => [[]]
  | x :: rest =>
      if x = b then [] :: splitOnByte b rest
      else
        match splitOnByte b rest with
        | s :: ss => (x :: s) :: ss
        | [] => [[x]]

/-- `parse_tag_line` (src/parse.rs lines 156-167): key between `<` and
the first `>`, value the trimmed remainder. -/
def parse_tag_line (line : List Nat) : Option (List Nat × List Nat) :=
  match memchrByte 62 line with
  | none => none
  | some gt => some ((line.take gt).drop 1, trim (line.drop (gt + 1)))

/-- `parse_document_metadata` (src/parse.rs lines 121-153). -/
def parse_document_metadata (data : List Nat) (standardize : Bool) :
    DocumentMetadata :=
  let step := fun (fields : List (String × String)) (line : List Nat) =>
    let line := trim line
    if line = [] then fields
    else if line.take 1 = [60] then
      match parse_tag_line line with
      | some (key, value) =>
          let keyStr := bytes_to_string key
          let valueStr := bytes_to_string value
          let fk := if standardize then standardize_key keyStr else keyStr
          let fv := if standardize then transform_value keyStr valueStr else valueStr
          mapInsertS fields fk fv
      | none => fields
    else fields
  { fields := (splitOnByte 10 data).foldl step []
    size_bytes := 0
    start_byte := none
    end_byte := none }

/-- `detect_format` (src/parse.rs lines 170-180). -/
def detect_format (data : List Nat) : SubmissionFormat :=
  let trimmed := trim_start data
  if trimmed.take 1 = [45] then .tabPrivacy
  else if [60, 83, 69].isPrefixOf trimmed then .tabDefault
  else .archive

/-- One step of the `fix_line_wraparound` loop (src/parse.rs lines
508-527); the state is `(result, last_was_continuation)`. -/
def fixStep (st : List (List Char) × Bool) (line : List Char) :
    List (List Char) × Bool :=
  let res :=
    if st.1 ≠ [] ∧ st.2 = true then st.1.dropLast ++ [st.1.getLastD [] ++ line]
    else st.1 ++ [line]
  (res, decide (1023 ≤ utf8Len line))

/-- `fix_line_wraparound` (src/parse.rs lines 508-527): a line of byte
length ≥ 1023 is continued by the following line. -/
def fix_line_wraparound (data : List Nat) : List (List Char) :=
  ((rustLines (bytes_to_string data).toList).foldl fixStep ([], false)).1

/-- `parse_sec_header_line` (src/parse.rs lines 398-413). -/
def parse_sec_header_line (line : List Char) : Option (String × String) :=
  match strFind ['>'] line with
  | none => none
  | some gt =>
      let tagName := (line.take gt).drop 1
      let rest := line.drop (gt + 1)
      match strFind [' ', ':', ' '] rest with
      | some cp =>
          let filename := trimChars (rest.take cp)
          let date := trimChars (rest.drop (cp + 3))
          some (String.mk tagName, String.mk (filename ++ [' ', ':', ' '] ++ date))
      | none => some (String.mk tagName, String.mk (trimChars rest))

/-- One line of `parse_tab_metadata` (src/parse.rs lines 224-292); the
state is `(root, path)`. -/
def tabLineStep (standardize : Bool)
    (st : List (String × MetadataValue) × List String) (line : List Char) :
    List (String × MetadataValue) × List String :=
  let root := st.1
  if asciiTrimChars line = [] then st
  else
    let indentLevel := (line.takeWhile (· = '\t')).length
    let lineContent := trimEndChars (line.drop indentLevel)
    if lineContent = [] then st
    else
      let path := st.2.take indentLevel
      match strFind [':'] lineContent with
      | some colonPos =>
          if "<SEC-DOCUMENT>".toList.isPrefixOf lineContent ∨
              "<SEC-HEADER>".toList.isPrefixOf lineContent then
            match parse_sec_header_line lineContent with
            | some kv =>
                let fk := if standardize then standardize_key kv.1 else kv.1
                (insert_at_path root path fk (.str kv.2), path)
            | none => (root, path)
          else
            let key := trimChars (lineContent.take colonPos)
            let value := trimChars (lineContent.drop (colonPos + 1))
            let fk :=
              if standardize then standardize_key (String.mk key)
              else String.mk key
            if value = [] then
              (insert_at_path root path fk (.obj []), path ++ [fk])
            else
              let fv :=
                if standardize then transform_value (String.mk key) (String.mk value)
                else String.mk value
              (insert_at_path root path fk (.str fv), path)
      | none =>
          if lineContent.take 1 = ['<'] ∧ (strFind ['>'] lineContent).isSome then
            match strFind ['>'] lineContent with
            | some gt =>
                let key := (lineContent.take gt).drop 1
                let value := trimChars (lineContent.drop (gt + 1))
                if key.take 1 = ['/'] then (root, path)
                else
                  let fk :=
                    if standardize then standardize_key (String.mk key)
                    else String.mk key
                  let fv :=
                    if standardize then transform_value (String.mk key) (String.mk value)
                    else String.mk value
                  (insert_at_path root path fk (.str fv), path)
            | none => (root, path)
          else (root, path)

/-- `parse_tab_metadata` (src/parse.rs lines 215-295). -/
def parse_tab_metadata (data : List Nat) (standardize : Bool) :
    List (String × MetadataValue) :=
  ((fix_line_wraparound data).foldl (tabLineStep standardize) ([], [])).1

/-- Rust `u8::is_ascii_alphanumeric`. -/
def isAlnumByte (b : Nat) : Bool :=
  (48 ≤ b && b ≤ 57) || (65 ≤ b && b ≤ 90) || (97 ≤ b && b ≤ 122)

/-- Scan for the first `>` at index ≥ 1 whose predecessor is
alphanumeric, returning the predecessor's index. -/
def findTagEndGo (prev : Nat) : List Nat → Nat → Option Nat
  | [], _ => none
  | x :: rest, i =>
      if x = 62 ∧ isAlnumByte prev then some (i - 1)
      else findTagEndGo x rest (i + 1)

/-- `find_tag_end` (src/parse.rs lines 385-395). -/
def find_tag_end (line : List Nat) : Option Nat :=
  match line with
  | [] => none
  | x :: rest => findTagEndGo x rest 1

/-- `parse_archive_keyvals` (src/parse.rs lines 357-382). -/
def parse_archive_keyvals (data : List Nat) : List (List Nat × List Nat) :=
  (splitOnByte 10 data).foldl
    (fun acc line =>
      let line := trim line
      if line = [] then acc
      else
        match find_tag_end line with
        | some gt =>
            if [60, 47].isPrefixOf line ∨ line.take 1 = [60] then
              acc ++ [((line.take (gt + 1)).drop 1, trim (line.drop (gt + 2)))]
            else acc
        | none => acc) []

/-- `parse_archive_metadata` (src/parse.rs lines 298-354). -/
def parse_archive_metadata (data : List Nat) (standardize : Bool) :
    List (String × MetadataValue) :=
  let keyvals := parse_archive_keyvals data
  let sectionTags : List (List Nat) :=
    keyvals.filterMap
      (fun kv => if kv.1.take 1 = [47] then some (kv.1.drop 1) else none)
  (keyvals.foldl
    (fun (st : List (String × MetadataValue) × List String) kv =>
      let root := st.1
      let path := st.2
      if kv.1 = [83, 85, 66, 77, 73, 83, 83, 73, 79, 78] then st
      else if kv.1.take 1 = [47] then (root, path.dropLast)
      else
        let keyStr := bytes_to_string kv.1
        let valueStr := bytes_to_string kv.2
        let fk := if standardize then standardize_key keyStr else keyStr
        if kv.2 ≠ [] then
          let fv := if standardize then transform_value keyStr valueStr else valueStr
          (insert_at_path root path fk (.str fv), path)
        else if sectionTags.contains kv.1 then
          (insert_at_path root path fk (.obj []), path ++ [fk])
        else
          (insert_at_path root path fk (.str ""), path)) ([], [])).1

/-- `find_double_newline` (src/parse.rs lines 568-570). -/
def find_double_newline (data : List Nat) : Option Nat :=
  memFind [10, 10] data

/-- `parse_submission_metadata` (src/parse.rs lines 183-211). -/
def parse_submission_metadata (data : List Nat) (standardize : Bool) :
    Except ParseError (SubmissionMetadata × SubmissionFormat) :=
  let format := detect_format data
  let fields :=
    match format with
    | .tabPrivacy =>
        let privacyEnd := (find_double_newline data).getD 0
        let privacyMsg := bytes_to_string (data.take privacyEnd)
        let rest := trim_start (data.drop privacyEnd)
        let fields := parse_tab_metadata rest standardize
        mapInsertMV fields
          (if standardize then "privacy-enhanced-message"
           else "PRIVACY-ENHANCED-MESSAGE")
          (.str privacyMsg)
    | .tabDefault => parse_tab_metadata data standardize
    | .archive => parse_archive_metadata data standardize
  .ok ({ fields := fields, documents := [] }, format)

/-- `clean_document_content` (src/parse.rs lines 474-505). -/
def clean_document_content (content : List Nat) (format : SubmissionFormat)
    (isBinary : Bool) : List Nat :=
  let content := trim content
  let content :=
    if [60, 80, 68, 70, 62].isPrefixOf content then content.drop 5
    else if [60, 88, 66, 82, 76, 62].isPrefixOf content then content.drop 6
    else if [60, 88, 77, 76, 62].isPrefixOf content then content.drop 5
    else content
  let content := trim content
  let content :=
    if [60, 47, 80, 68, 70, 62].isSuffixOf content then
      content.take (content.length - 6)
    else if [60, 47, 88, 66, 82, 76, 62].isSuffixOf content then
      content.take (content.length - 7)
    else if [60, 47, 88, 77, 76, 62].isSuffixOf content then
      content.take (content.length - 6)
    else content
  if isBinary = false ∧ (format = .tabPrivacy ∨ format = .tabDefault) then
    utf8Encode ((fix_line_wraparound content).intersperse ['\n']).flatten
  else
    trim content

/-- `parse_single_document` (src/parse.rs lines 86-118). -/
def parse_single_document (docData : List Nat) (format : SubmissionFormat)
    (standardize : Bool) : Except ParseError (DocumentMetadata × List Nat) :=
  match memFind [60, 84, 69, 88, 84, 62] docData with
  | none => .error (.invalidStructure "Missing <TEXT> tag")
  | some textStart =>
      let metaSlice := (docData.take textStart).drop 10
      let docMeta := parse_document_metadata metaSlice standardize
      let contentStart := textStart + 6
      let contentEnd :=
        match memFind [60, 47, 84, 69, 88, 84, 62] (docData.drop contentStart) with
        | some pos => contentStart + pos
        | none => docData.length
      let rawContent := (docData.take contentEnd).drop contentStart
      let isBinary := is_uuencoded rawContent
      let content :=
        if isBinary then decode_uuencoded rawContent
        else clean_document_content rawContent format false
      .ok ({ docMeta with size_bytes := content.length }, content)

/-- Inner loop of `find_document_boundaries` (src/parse.rs lines 63-83):
repeatedly find `<DOCUMENT>`, then the nearest following `</DOCUMENT>`;
a stray opening tag without a closing one ends the scan.  The `while`
loop is rendered with a fuel parameter; each iteration advances `pos` by
at least 11 bytes, so `data.length + 1` units of fuel (as supplied by
`find_document_boundaries`) can never run out before the search fails. -/
def fdbGo (data : List Nat) : Nat → Nat → List (Nat × Nat)
  | 0, _ => []
  | fuel + 1, pos =>
      match memFind [60, 68, 79, 67, 85, 77, 69, 78, 84, 62] (data.drop pos) with
      | none => []
      | some start =>
          match memFind [60, 47, 68, 79, 67, 85, 77, 69, 78, 84, 62]
              (data.drop (pos + start)) with
          | none => []
          | some e =>
              (pos + start, pos + start + e + 11) ::
                fdbGo data fuel (pos + start + e + 11)

/-- `find_document_boundaries` (src/parse.rs lines 63-83). -/
def find_document_boundaries (data : List Nat) : List (Nat × Nat) :=
  fdbGo data (data.length + 1) 0

/-- The `indices` computation of `apply_filter` (src/parse.rs lines
541-553): positions whose `type`/`TYPE` field is in the filter list. -/
def filterIndices (options : ParseOptions)
    (docMetas : List DocumentMetadata) : List Nat :=
  docMetas.enum.filterMap
    (fun ie =>
      match lookupS ie.2.fields
          (if options.standardize_metadata then "type" else "TYPE") with
      | some t =>
          if options.filter_document_types.contains t then some ie.1 else none
      | none => none)

/-- `apply_filter` (src/parse.rs lines 530-565).  The `documents[i]` /
`doc_metas[i]` indexing (indices are in range by construction) is
modelled with `getD`. -/
def apply_filter (docMetas : List DocumentMetadata)
    (documents : List (List Nat)) (options : ParseOptions) :
    List DocumentMetadata × List (List Nat) :=
  if options.filter_document_types = [] then (docMetas, documents)
  else
    let indices := filterIndices options docMetas
    if options.keep_filtered_metadata then
      (docMetas, indices.map (fun i => documents.getD i []))
    else
      (indices.map (fun i => docMetas.getD i default),
       indices.map (fun i => documents.getD i []))

/-- `collect::<Result<Vec<_>>>` over a map: the first error aborts.  The
rayon `par_iter` branch of src/parse.rs lines 35-45 is an
order-preserving map with the same collection semantics as the
sequential branch, so both branches are this same function. -/
def mapMEx (f : α → Except ε β) : List α → Except ε (List β)
  | [] => .ok []
  | a :: as_ =>
      match f a with
      | .error e => .error e
      | .ok b =>
          match mapMEx f as_ with
          | .error e => .error e
          | .ok bs => .ok (b :: bs)

/-- `parse_sgml` (src/parse.rs lines 26-60). -/
def parse_sgml (data : List Nat) (options : ParseOptions) :
    Except ParseError ParsedSubmission :=
  let docBoundaries := find_document_boundaries data
  let headerEnd := ((docBoundaries.head?).map Prod.fst).getD data.length
  match parse_submission_metadata (data.take headerEnd)
      options.standardize_metadata with
  | .error e => .error e
  | .ok sm =>
      match mapMEx
          (fun se => parse_single_document ((data.take se.2).drop se.1) sm.2
            options.standardize_metadata) docBoundaries with
      | .error e => .error e
      | .ok parsedDocs =>
          let docMetas := parsedDocs.map Prod.fst
          let documents := parsedDocs.map Prod.snd
          let fla := apply_filter docMetas documents options
          .ok { metadata := { sm.1 with documents := fla.1 }
                documents := fla.2
                format := sm.2 }

/-! ## Spec-side definitions for claim C3 -/

mutual

/-- Spec-side collapse, state "previous char was not whitespace":
a whitespace run becomes a single `'-'`. -/
def collapseAfterChar : List Char → List Char
  | [] => []
  | c :: cs =>
      if rustIsWhitespace c then '-' :: collapseAfterWs cs
      else toAsciiLower c :: collapseAfterChar cs

/-- Spec-side collapse, state "at start or previous char was whitespace":
further whitespace is dropped without emitting anything. -/
def collapseAfterWs : List Char → List Char
  | [] => []
  | c :: cs =>
      if rustIsWhitespace c then collapseAfterWs cs
      else toAsciiLower c :: collapseAfterChar cs

end

/-- The amended spec transform for keys missing from the table: ASCII
lowercase, every whitespace run collapsed to one `'-'`, except that
leading whitespace is dropped entirely (no leading `'-'`); trailing
whitespace still yields a trailing `'-'`. -/
def specStandardizeMiss (key : String) : String :=
  String.mk (collapseAfterWs key.toList)

/-! ## JSON serialization (serde_json model, src/types.rs derives)

`serde_json::to_string` of the `Serialize` derives of src/types.rs:
struct fields are serialized in declaration order; `#[serde(flatten)]`
map entries are inlined in the map's iteration order (the order of our
association-list model); `rename` and `skip_serializing_if` follow the
attributes on `DocumentMetadata`/`SubmissionMetadata`; `usize` fields
are JSON numbers and strings are escaped exactly as serde_json escapes
them. -/

/-- Lowercase hex digit. -/
def hexDigit (n : Nat) : Char :=
  if n < 10 then Char.ofNat (48 + n) else Char.ofNat (87 + n)

/-- serde_json's string escaping: `"` and `\` are backslash-escaped,
control characters use the short forms or `\u00XX`. -/
def jsonEscapeChar (c : Char) : List Char :=
  if c = '"' then ['\\', '"']
  else if c = '\\' then ['\\', '\\']
  else if c.toNat = 8 then ['\\', 'b']
  else if c.toNat = 9 then ['\\', 't']
  else if c.toNat = 10 then ['\\', 'n']
  else if c.toNat = 12 then ['\\', 'f']
  else if c.toNat = 13 then ['\\', 'r']
  else if c.toNat < 32 then
    ['\\', 'u', '0', '0', hexDigit (c.toNat / 16), hexDigit (c.toNat % 16)]
  else [c]

/-- Escape a whole string. -/
def jsonEscape (s : List Char) : List Char :=
  (s.map jsonEscapeChar).flatten

/-- A JSON string literal. -/
def jsonString (s : String) : String :=
  "\"" ++ String.mk (jsonEscape s.toList) ++ "\""

/-- Join with commas (the separator serde_json places between map
entries and array elements). -/
def commaJoin : List String → String
  | [] => ""
  | [x] => x
  | x :: xs => x ++ "," ++ commaJoin xs

mutual

/-- JSON of a `MetadataValue` (`#[serde(untagged)]`). -/
def serValue : MetadataValue → String
  | .str s => jsonString s
  | .list l => "[" ++ serValueList l ++ "]"
  | .obj o => "\x7b" ++ serValueObj o ++ "\x7d"

/-- Comma-joined JSON of a list of values. -/
def serValueList : List MetadataValue → String
  | [] => ""
  | [v] => serValue v
  | v :: vs => serValue v ++ "," ++ serValueList vs

/-- Comma-joined JSON of an object's entries. -/
def serValueObj : List (String × MetadataValue) → String
  | [] => ""
  | [e] => jsonString e.1 ++ ":" ++ serValue e.2
  | e :: es => jsonString e.1 ++ ":" ++ serValue e.2 ++ "," ++ serValueObj es

end

/-- The JSON entries of one `DocumentMetadata`: the flattened `fields`
map, then `secsgml_size_bytes` (a number), then the optional
`secsgml_start_byte`/`secsgml_end_byte` strings (omitted when `None`). -/
def docEntries (d : DocumentMetadata) : List String :=
  d.fields.map (fun e => jsonString e.1 ++ ":" ++ jsonString e.2)
    ++ [jsonString "secsgml_size_bytes" ++ ":" ++ Nat.repr d.size_bytes]
    ++ (match d.start_byte with
        | some s => [jsonString "secsgml_start_byte" ++ ":" ++ jsonString s]
        | none => [])
    ++ (match d.end_byte with
        | some s => [jsonString "secsgml_end_byte" ++ ":" ++ jsonString s]
        | none => [])

/-- JSON of one `DocumentMetadata`. -/
def serDoc (d : DocumentMetadata) : String :=
  "\x7b" ++ commaJoin (docEntries d) ++ "\x7d"

/-- JSON of a `SubmissionMetadata`: the flattened `fields` map followed
by the `documents` array. -/
def serSub (m : SubmissionMetadata) : String :=
  "\x7b" ++ commaJoin
      (m.fields.map (fun e => jsonString e.1 ++ ":" ++ serValue e.2)
        ++ [jsonString "documents" ++ ":" ++ "[" ++
              commaJoin (m.documents.map serDoc) ++ "]"]) ++ "\x7d"

/-! ## Tar writer (src/write.rs) -/

/-- `pad_to_block` (src/write.rs lines 101-108). -/
def pad_to_block (size : Nat) : Nat :=
  if size % 512 = 0 then 0 else 512 - size % 512

/-- `format!("{:011o}", n)`: octal, zero-padded to at least 11 digits. -/
def octal11 (n : Nat) : List Char :=
  let s := Nat.toDigits 8 n
  List.replicate (11 - s.length) '0' ++ s

/-- `format!("{:06o}", n)`: octal, zero-padded to at least 6 digits. -/
def octal6 (n : Nat) : List Char :=
  let s := Nat.toDigits 8 n
  List.replicate (6 - s.length) '0' ++ s

/-- `format!("{:010}", n)`: decimal, zero-padded to at least 10 digits.
For `n < 10^10` this is exactly the ten digits
`n / 10^9 % 10, …, n % 10`; otherwise it is the plain decimal form. -/
def pad10 (n : Nat) : String :=
  if n < 10 ^ 10 then
    String.mk ((List.range 10).map (fun i => Char.ofNat (48 + n / 10 ^ (9 - i) % 10)))
  else String.mk (Nat.toDigits 10 n)

/-- Decimal value of a digit string. -/
def natOfDigits (s : List Char) : Nat :=
  s.foldl (fun acc c => acc * 10 + (c.toNat - 48)) 0

/-- The header bytes of `build_tar_header` (src/write.rs lines 130-186)
before the checksum is patched in: each `copy_from_slice` range laid out
at its offset (0 name, 100 mode, 108 uid, 116 gid, 124 size, 136 mtime,
148 checksum placeholder of eight spaces, 156 typeflag, 257 magic,
263 version; everything else NUL). -/
def tarHeaderPre (filename : String) (size : Nat) : List Nat :=
  let name := (utf8Encode filename.toList).take 100
  name ++ List.replicate (100 - name.length) 0
    ++ (strBytes "0000644" ++ [0])
    ++ (strBytes "0000000" ++ [0])
    ++ (strBytes "0000000" ++ [0])
    ++ ((octal11 size).map Char.toNat ++ [0])
    ++ (strBytes "00000000000" ++ [0])
    ++ List.replicate 8 32
    ++ [48]
    ++ List.replicate 100 0
    ++ (strBytes "ustar" ++ [0])
    ++ strBytes "00"
    ++ List.replicate 247 0

/-- `build_tar_header` (src/write.rs lines 130-186).  The two
`copy_from_slice` calls panic when the formatted octal size or checksum
exceeds its field width, which we model as `none` (the checksum in fact
always fits: the byte sum of a 512-byte header is below 8^6). -/
def build_tar_header (filename : String) (size : Nat) : Option (List Nat) :=
  if (octal11 size).length ≠ 11 then none
  else
    let pre := tarHeaderPre filename size
    let checksum := pre.sum
    if (octal6 checksum).length ≠ 6 then none
    else some (pre.take 148 ++ ((octal6 checksum).map Char.toNat ++ [0, 32])
      ++ pre.drop 156)

/-- `write_tar_entry` (src/write.rs lines 111-127): header, content,
NUL padding to the 512 boundary. -/
def write_tar_entry (filename : String) (content : List Nat) : Option (List Nat) :=
  (build_tar_header filename content.length).map
    (fun h => h ++ content ++ List.replicate (pad_to_block content.length) 0)

/-- Step 1 of `calculate_tar_positions` (src/write.rs lines 66-69):
give every document the ten-digit placeholders. -/
def setPlaceholders (md : SubmissionMetadata) : SubmissionMetadata :=
  { md with
    documents :=
      md.documents.map
        (fun d =>
          { d with
            start_byte := some "9999999999"
            end_byte := some "9999999999" }) }

/-- Step 4 of `calculate_tar_positions` (src/write.rs lines 81-95):
walk the payloads, recording `current + 512` and `current + 512 + size`
as ten-digit decimals and advancing by header + content + padding.
Documents beyond the payload count keep their placeholders. -/
def calcPositions : List DocumentMetadata → List (List Nat) → Nat →
    List DocumentMetadata
  | docs, [], _ => docs
  | [], _ :: _, _ => []
  | d :: ds, c :: cs, current =>
      { d with start_byte := some (pad10 (current + 512)),
               end_byte := some (pad10 (current + 512 + c.length)) } ::
        calcPositions ds cs (current + 512 + c.length + pad_to_block c.length)

/-- `calculate_tar_positions` (src/write.rs lines 64-98).  Indexing
`metadata.documents[i]` panics when there are more payloads than
document metadata entries, modelled as `none`. -/
def calculate_tar_positions (metadata : SubmissionMetadata)
    (documents : List (List Nat)) : Option SubmissionMetadata :=
  if metadata.documents.length < documents.length then none
  else
    let md1 := setPlaceholders metadata
    let metadataSize := utf8Len (serSub md1).toList
    let metadataPadded := metadataSize + pad_to_block metadataSize
    some { md1 with
      documents := calcPositions md1.documents documents (512 + metadataPadded) }

/-- The document file name (src/write.rs lines 47-50): the `filename`
field, else `<sequence>.txt`, else `<index+1>.txt`. -/
def docFilename (m : DocumentMetadata) (i : Nat) : String :=
  match lookupS m.fields "filename" with
  | some f => f
  | none =>
      match lookupS m.fields "sequence" with
      | some s => s ++ ".txt"
      | none => Nat.repr (i + 1) ++ ".txt"

/-- The document loop of `write_to_tar_writer` (src/write.rs lines
43-53); `metadata.documents[i]` out of bounds is the panic case. -/
def writeDocEntries (metas : List DocumentMetadata) :
    List (List Nat) → Nat → Option (List Nat)
  | [], _ => some []
  | c :: cs, i =>
      match metas.get? i with
      | none => none
      | some m =>
          match write_tar_entry (docFilename m i) c with
          | none => none
          | some entry =>
              match writeDocEntries metas cs (i + 1) with
              | none => none
              | some rest => some (entry ++ rest)

/-- `write_to_tar_writer` (src/write.rs lines 28-61): compute positions,
serialize the (mutated) metadata, emit `metadata.json`, each document,
and the two NUL end-of-archive blocks.  The returned bytes are the full
archive. -/
def write_to_tar_writer (submission : ParsedSubmission) : Option (List Nat) :=
  match calculate_tar_positions submission.metadata submission.documents with
  | none => none
  | some metadata =>
      let metadataBytes := utf8Encode (serSub metadata).toList
      match write_tar_entry "metadata.json" metadataBytes with
      | none => none
      | some metaEntry =>
          match writeDocEntries metadata.documents submission.documents 0 with
          | none => none
          | some docBytes =>
              some (metaEntry ++ docBytes ++ List.replicate 1024 0)

/-- Total archive size contributed by a payload list: per document a
512-byte header, the content, and padding to the block boundary. -/
def tarDocsSize : List (List Nat) → Nat
  | [] => 0
  | c :: cs => 512 + c.length + pad_to_block c.length + tarDocsSize cs

instance : Inhabited SubmissionMetadata :=
  ⟨⟨[], []⟩⟩

/-- A concrete two-document submission used by the C9 witness. -/
def c9Data : List Nat :=
  strBytes "<SEC-DOCUMENT>t\n<DOCUMENT>\n<TYPE>10-K\n<TEXT>\naaa\n</TEXT>\n</DOCUMENT>\n<DOCUMENT>\n<TYPE>EX-99\n<TEXT>\nbbb\n</TEXT>\n</DOCUMENT>\n"

/-- Filter to `10-K`, keeping filtered metadata. -/
def c9Opts : ParseOptions :=
  ⟨["10-K"], true, true, true⟩

/-- The parse result of the C9 witness input. -/
def c9Sub : ParsedSubmission :=
  match parse_sgml c9Data c9Opts with
  | .ok s => s
  | .error _ => default

/-- Filler string sized so that the pass-1 placeholder JSON of `ceSub`
is exactly 512 bytes long (a multiple of the tar block size). -/
def ceFill : String := String.mk (List.replicate 281 'a')

/-- A submission whose second document ends past byte `10^10` of the
archive: payload sizes `2^31` and `2^33 - 2^9` (both below the octal
field limit `8^11` and multiples of 512). -/
def ceSub : ParsedSubmission :=
  ⟨⟨[("filler", .str ceFill)],
    [⟨[("type", "A")], 0, none, none⟩, ⟨[("type", "B")], 0, none, none⟩]⟩,
   [List.replicate 2147483648 0, List.replicate 8589934080 0], .archive⟩

/-- The metadata produced by `calculate_tar_positions` on `ceSub`: the
pass-1 JSON is 512 bytes, so `after_metadata = 1024` and the recorded
offsets are `1536`, `1536 + 2^31`, `2^31 + 2048`, and
`2^31 + 2048 + (2^33 - 2^9)`; the last one, `10737419776`, exceeds
`10^10` and its decimal form is eleven characters wide. -/
def ceMd : SubmissionMetadata :=
  ⟨[("filler", .str ceFill)],
   [⟨[("type", "A")], 0, some (pad10 1536), some (pad10 2147485184)⟩,
    ⟨[("type", "B")], 0, some (pad10 2147485696), some (pad10 10737419776)⟩]⟩

/-- The `metadata.json` tar entry of `ceSub` (pass-2 JSON is 513 bytes,
so this entry is `512 + 513 + 511 = 1536` bytes — 512 more than pass 1
assumed). -/
def ceMetaEntry : List Nat :=
  (write_tar_entry "metadata.json" (utf8Encode (serSub ceMd).toList)).getD []

/-- Tar header of the first document of `ceSub`. -/
def ceHdr0 : List Nat := (build_tar_header "1.txt" 2147483648).getD []

/-- Tar header of the second document of `ceSub`. -/
def ceHdr1 : List Nat := (build_tar_header "2.txt" 8589934080).getD []

/-- First document entry of the `ceSub` archive. -/
def ceDoc0 : List Nat := ceHdr0 ++ List.replicate 2147483648 0 ++ List.replicate 0 0

/-- Second document entry of the `ceSub` archive. -/
def ceDoc1 : List Nat := ceHdr1 ++ List.replicate 8589934080 0 ++ List.replicate 0 0

/-- The archive emitted by `write_to_tar_writer` on `ceSub`. -/
def ceArchive : List Nat :=
  ceMetaEntry ++ (ceDoc0 ++ (ceDoc1 ++ [])) ++ List.replicate 1024 0

/-- Two-entry field map in one iteration order (C2). -/
def c2m1 : SubmissionMetadata := ⟨[("a", .str "1"), ("b", .str "2")], []⟩

/-- The same field map in the other iteration order (C2). -/
def c2m2 : SubmissionMetadata := ⟨[("b", .str "2"), ("a", .str "1")], []⟩

/-- A small single-document submission (payload `"ABC"`). -/
def c1wSub : ParsedSubmission :=
  ⟨⟨[("accession", .str "X")], [⟨[("type", "10-K")], 3, none, none⟩]⟩,
   [[65, 66, 67]], .archive⟩

/-- Its archive. -/
def c1wArchive : List Nat := (write_to_tar_writer c1wSub).getD []

/-! ## Theorems -/

theorem memFind_some_prefix {pat l : List Nat} {i : Nat}
    (h : memFind pat l = some i) : pat.isPrefixOf (l.drop i) := by
  induction l generalizing i with
  | nil =>
      simp only [memFind] at h
      split at h
      · rename_i hpat
        cases h
        subst hpat
        simp [List.isPrefixOf]
      · exact absurd h (by simp)
  | cons b rest ih =>
      simp only [memFind] at h
      split at h
      · cases h
        simpa using ‹pat.isPrefixOf (b :: rest)›
      · cases hmf : memFind pat rest with
        | none => simp [hmf] at h
        | some j =>
            simp [hmf] at h
            subst h
            simpa using ih hmf

theorem memFind_none_no_prefix {pat l : List Nat}
    (h : memFind pat l = none) : ∀ i, ¬ pat.isPrefixOf (l.drop i) := by
  induction l with
  | nil =>
      intro i hp
      simp only [memFind] at h
      split at h
      · exact absurd h (by simp)
      · rename_i hpat
        rw [List.drop_nil] at hp
        cases pat with
        | nil => exact hpat rfl
        | cons x xs => simp [List.isPrefixOf] at hp
  | cons b rest ih =>
      intro i
      simp only [memFind] at h
      split at h
      · exact absurd h (by simp)
      · cases hmf : memFind pat rest with
        | some j => simp [hmf] at h
        | none =>
            cases i with
            | zero => simpa using ‹¬ pat.isPrefixOf (b :: rest)›
            | succ k => simpa using ih hmf k

/-! ### Lemmas about the strict decoder loop -/

/-- Whenever the `a2b_uu` loop returns `Ok`, it has pushed exactly
`remaining` bytes onto the accumulator (missing input characters
contribute zero bits and still produce bytes). -/
theorem a2bLoop_ok_length : ∀ (r lb lc : Nat) (rest acc v : List Nat),
    a2bLoop r lb lc rest acc = .ok v → v.length = acc.length + r := by
  intro r lb lc rest acc
  induction r, lb, lc, rest, acc using a2bLoop.induct with
  | case1 lb lc rest acc =>
      intro v h
      rw [a2bLoop.eq_def] at h
      simp only [if_pos rfl] at h
      cases h
      simp
  | case2 r lb lc acc hr h8 ih =>
      intro v h
      rw [a2bLoop.eq_def, if_neg hr] at h
      simp only [if_pos h8] at h
      have := ih v h
      simp only [List.length_append, List.length_cons, List.length_nil] at this
      omega
  | case3 r lb lc acc hr h8 ih =>
      intro v h
      rw [a2bLoop.eq_def, if_neg hr] at h
      simp only [if_neg h8] at h
      exact ih v h
  | case4 r lb lc acc hr b rest' hbad =>
      intro v h
      rw [a2bLoop.eq_def, if_neg hr] at h
      simp only [if_pos hbad] at h
      simp at h
  | case5 r lb lc acc hr b rest' hbad ch h8 ih =>
      intro v h
      rw [a2bLoop.eq_def, if_neg hr] at h
      simp only [if_neg hbad, if_pos h8] at h
      have := ih v h
      simp only [List.length_append, List.length_cons, List.length_nil] at this
      omega
  | case6 r lb lc acc hr b rest' hbad ch h8 ih =>
      intro v h
      rw [a2bLoop.eq_def, if_neg hr] at h
      simp only [if_neg hbad, if_neg h8] at h
      exact ih v h

/-! ### Claim C10 -/

/-- C10: on every non-empty input on which the strict decoder `a2b_uu`
returns `Ok`, the returned byte vector has length exactly
`(first_byte - 32) & 0x3F` (with wrapping `u8` subtraction), even when
the line has fewer encoded characters than the length requires; on the
empty input it returns `Ok` with the empty vector. -/
theorem claim_C10_a2b_uu_length (d v : List Nat) (h : a2b_uu d = .ok v) :
    (d = [] → v = []) ∧
    ∀ b0 rest, d = b0 :: rest → v.length = ((b0 + 256 - 32) % 256) % 64 := by
  constructor
  · rintro rfl
    simpa [a2b_uu] using h
  · rintro b0 rest rfl
    simp only [a2b_uu] at h
    cases ha : a2bLoop (((b0 + 256 - 32) % 256) % 64) 0 0 rest [] with
    | error e => rw [ha] at h; simp at h
    | ok bd =>
        rw [ha] at h
        have hlen := a2bLoop_ok_length _ _ _ _ _ _ ha
        split at h
        · exact absurd h (by simp)
        · rename_i binData heq
          injection heq with heq'
          subst heq'
          split at h
          · cases h
            simpa using hlen
          · exact absurd h (by simp)

/-- Witness for C10 at the concrete line `"#0V%T"` (decodes to `"Cat"`,
three bytes, and `('#' - 32) & 0x3F = 3`). -/
theorem claim_C10_witness :
    (([35, 48, 86, 37, 84] : List Nat) = [] → ([67, 97, 116] : List Nat) = []) ∧
    ∀ b0 rest, ([35, 48, 86, 37, 84] : List Nat) = b0 :: rest →
      ([67, 97, 116] : List Nat).length = ((b0 + 256 - 32) % 256) % 64 :=
  claim_C10_a2b_uu_length _ _ (by simp [a2b_uu, a2bLoop])

/-! ### Claim C6 -/

/-- C6 counterexample: a trailing character beyond the minimum
`⌈4n/3⌉ = 2` characters needed for `n = 1` payload byte is NOT always
tolerated.  The line `"!AA"` decodes to its one payload byte, but
`"!AAX"` — same line with one trailing character — decodes to nothing:
the decoder consumes `1 + (4·1+5)/3 = 4` characters and the strict
`a2b_uu` then rejects `'X'` as trailing garbage. -/
theorem claim_C6_counterexample :
    decode_uu_line ['!', 'A', 'A', 'X'] = none ∧
    decode_uu_line ['!', 'A', 'A'] = some [134] := by
  constructor <;> simp [decode_uu_line, uuLineKeep, a2b_uu, a2bLoop]

/-- Unfolding of `decode_uu_line` when the filtered line is known. -/
theorem decode_uu_line_eq (line : List Char) (c0 : Char) (tl : List Char)
    (hcl : line.filter uuLineKeep = c0 :: tl) :
    decode_uu_line line =
      match a2b_uu (((c0 :: tl).take (((c0.toNat - 32) % 64 * 4 + 5) / 3 + 1)).map
          Char.toNat) with
      | .ok v => some v
      | .error _ => none := by
  unfold decode_uu_line
  rw [hcl]

/-- C6 (amended): `decode_uu_line` consumes `(4n+5)/3` characters beyond
the count character (one more than the minimum `⌈4n/3⌉`) from the
filtered line; characters beyond those consumed are tolerated: whenever
the filtered line already contains the `1 + (4n+5)/3` consumed
characters, appending anything to the line does not change the result. -/
theorem claim_C6_amended (l extra : List Char)
    (h : ((((l.filter uuLineKeep).headD ' ').toNat - 32) % 64 * 4 + 5) / 3 + 1
          ≤ (l.filter uuLineKeep).length) :
    decode_uu_line (l ++ extra) = decode_uu_line l := by
  cases hcl : l.filter uuLineKeep with
  | nil => rw [hcl] at h; simp at h
  | cons c0 tl =>
      rw [hcl, List.headD_cons] at h
      have hcl2 : (l ++ extra).filter uuLineKeep =
          c0 :: (tl ++ extra.filter uuLineKeep) := by
        rw [List.filter_append, hcl, List.cons_append]
      rw [decode_uu_line_eq l c0 tl hcl,
        decode_uu_line_eq (l ++ extra) c0 (tl ++ extra.filter uuLineKeep) hcl2]
      have htake : (((c0 :: tl) ++ extra.filter uuLineKeep)).take
            (((c0.toNat - 32) % 64 * 4 + 5) / 3 + 1) =
          (c0 :: tl).take (((c0.toNat - 32) % 64 * 4 + 5) / 3 + 1) :=
        List.take_append_of_le_length h
      rw [List.cons_append] at htake
      rw [htake]

/-- Witness for the amended C6: for `"!AA "` (count `'!'`, `n = 1`, the
four consumed characters all present) appending `"XY"` changes nothing. -/
theorem claim_C6_amended_witness :
    decode_uu_line (['!', 'A', 'A', ' '] ++ ['X', 'Y']) =
      decode_uu_line ['!', 'A', 'A', ' '] ∧
    decode_uu_line ['!', 'A', 'A', ' '] = some [134] :=
  ⟨claim_C6_amended _ _ (by simp [uuLineKeep]),
   by simp [decode_uu_line, uuLineKeep, a2b_uu, a2bLoop]⟩

/-! ### Claim C4 -/

/-- C4 counterexample: on `"begin 644\nx"` the code returns `true`
(the length-11 check spans the line break), but neither the first line
`"begin 644"` (only 9 bytes, no filename) nor the second line `"x"`
matches the claimed `begin DDD f…` form. -/
theorem claim_C4_counterexample :
    is_uuencoded [98, 101, 103, 105, 110, 32, 54, 52, 52, 10, 120] = true ∧
    claimUuDetect [98, 101, 103, 105, 110, 32, 54, 52, 52, 10, 120] = false := by
  decide

theorem check_begin_line_iff (l : List Nat) :
    check_begin_line l = true ↔ beginSuffixOk l := by
  unfold check_begin_line beginSuffixOk
  simp [List.isPrefixOf_iff_prefix, List.all_eq_true, and_assoc]

theorem memchr_check_split (c : List Nat) :
    (∃ p, memchrByte 10 c = some p ∧ check_begin_line (c.drop (p + 1)) = true) ↔
    (∃ pre suf, c = pre ++ 10 :: suf ∧ 10 ∉ pre ∧ check_begin_line suf = true) := by
  induction c with
  | nil =>
      constructor
      · rintro ⟨p, hp, -⟩
        simp [memchrByte] at hp
      · rintro ⟨pre, suf, heq, -, -⟩
        exact absurd heq (by simp)
  | cons b rest ih =>
      by_cases hb : b = 10
      · subst hb
        constructor
        · rintro ⟨p, hp, hc⟩
          rw [memchrByte, if_pos rfl] at hp
          cases hp
          exact ⟨[], rest, by simp, by simp, by simpa using hc⟩
        · rintro ⟨pre, suf, heq, hnot, hc⟩
          cases pre with
          | nil =>
              simp only [List.nil_append, List.cons.injEq] at heq
              refine ⟨0, by rw [memchrByte, if_pos rfl], ?_⟩
              rw [List.drop_succ_cons, List.drop_zero, heq.2]
              exact hc
          | cons q qre =>
              simp only [List.cons_append, List.cons.injEq] at heq
              exact absurd (heq.1 ▸ List.mem_cons_self q qre) hnot
      · constructor
        · rintro ⟨p, hp, hc⟩
          rw [memchrByte, if_neg hb] at hp
          cases hmr : memchrByte 10 rest with
          | none => rw [hmr] at hp; simp at hp
          | some p' =>
              rw [hmr] at hp
              simp only [Option.map_some'] at hp
              cases hp
              obtain ⟨pre, suf, heq, hnot, hcs⟩ :=
                ih.mp ⟨p', hmr, by simpa using hc⟩
              refine ⟨b :: pre, suf, by simp [heq], ?_, hcs⟩
              intro hm
              rcases List.mem_cons.mp hm with h10 | h10
              · exact hb h10.symm
              · exact hnot h10
        · rintro ⟨pre, suf, heq, hnot, hc⟩
          cases pre with
          | nil =>
              simp only [List.nil_append, List.cons.injEq] at heq
              exact absurd heq.1 hb
          | cons q qre =>
              simp only [List.cons_append, List.cons.injEq] at heq
              obtain ⟨rfl, heq'⟩ := heq
              obtain ⟨p', hp', hcd⟩ :=
                ih.mpr ⟨qre, suf, heq', fun hm => hnot (by simp [hm]), hc⟩
              refine ⟨p' + 1, ?_, by simpa using hcd⟩
              rw [memchrByte, if_neg hb, hp']
              rfl

/-- C4 (amended): the detection the code implements, with the per-line
reading replaced by the suffix reading (the mode may be longer than
three digits, no separating space is required, and the 11-byte minimum
may span line breaks). -/
theorem claim_C4_amended (content : List Nat) :
    is_uuencoded content = true ↔ uuDetectAmended content := by
  unfold is_uuencoded uuDetectAmended
  by_cases h1 : check_begin_line (trim_start content) = true
  · rw [if_pos h1]
    simp only [true_iff]
    exact Or.inl ((check_begin_line_iff _).mp h1)
  · rw [if_neg (by simpa using h1)]
    constructor
    · intro h
      right
      cases hm : memchrByte 10 (trim_start content) with
      | none => rw [hm] at h; simp at h
      | some p =>
          rw [hm] at h
          obtain ⟨pre, suf, heq, hnot, hc⟩ :=
            (memchr_check_split (trim_start content)).mp ⟨p, hm, h⟩
          exact ⟨pre, suf, heq, hnot, (check_begin_line_iff suf).mp hc⟩
    · rintro (hok | ⟨pre, suf, heq, hnot, hok⟩)
      · exact absurd ((check_begin_line_iff _).mpr hok) h1
      · obtain ⟨p, hp, hc⟩ := (memchr_check_split (trim_start content)).mpr
          ⟨pre, suf, heq, hnot, (check_begin_line_iff suf).mpr hok⟩
        rw [hp]
        exact hc

/-! ### Claim C3 -/

/-- The miss-path fold with a non-empty accumulator behaves as the
two-state spec collapse. -/
theorem stdFold_spec (cs : List Char) : ∀ acc : List Char, acc ≠ [] →
    ((cs.foldl stdStep (acc, false)).1 = acc ++ collapseAfterChar cs ∧
     (cs.foldl stdStep (acc, true)).1 = acc ++ collapseAfterWs cs) := by
  induction cs with
  | nil => intro acc _; simp [collapseAfterChar, collapseAfterWs]
  | cons c cs ih =>
      intro acc hacc
      by_cases hw : rustIsWhitespace c = true
      · constructor
        · rw [List.foldl_cons,
            show stdStep (acc, false) c = (acc ++ ['-'], true) by
              simp [stdStep, hw, hacc],
            (ih (acc ++ ['-']) (by simp)).2]
          simp [collapseAfterChar, hw]
        · rw [List.foldl_cons,
            show stdStep (acc, true) c = (acc, true) by simp [stdStep, hw],
            (ih acc hacc).2]
          simp [collapseAfterWs, hw]
      · have hstep : ∀ b, stdStep (acc, b) c = (acc ++ [toAsciiLower c], false) := by
          intro b; simp [stdStep, hw]
        constructor
        · rw [List.foldl_cons, hstep, (ih (acc ++ [toAsciiLower c]) (by simp)).1]
          simp [collapseAfterChar, hw]
        · rw [List.foldl_cons, hstep, (ih (acc ++ [toAsciiLower c]) (by simp)).1]
          simp [collapseAfterWs, hw]

/-- From the empty accumulator (either flag), the miss-path fold computes
the spec collapse with leading whitespace dropped. -/
theorem stdFold_start (cs : List Char) : ∀ b : Bool,
    (cs.foldl stdStep ([], b)).1 = collapseAfterWs cs := by
  induction cs with
  | nil => intro b; simp [collapseAfterWs]
  | cons c cs ih =>
      intro b
      by_cases hw : rustIsWhitespace c = true
      · rw [List.foldl_cons,
          show stdStep (([] : List Char), b) c = ([], true) by simp [stdStep, hw],
          ih true]
        simp [collapseAfterWs, hw]
      · rw [List.foldl_cons,
          show stdStep (([] : List Char), b) c = ([toAsciiLower c], false) by
            simp [stdStep, hw],
          (stdFold_spec cs [toAsciiLower c] (by simp)).1]
        simp [collapseAfterWs, hw]

/-- C3 counterexample: `standardize_key` does NOT produce a leading `-`
for leading whitespace — the code only pushes `'-'` when the result
built so far is non-empty.  `"  foo   bar "` maps to `"foo-bar-"`, not
to the claimed `"-foo-bar-"`. -/
theorem claim_C3_counterexample :
    standardize_key "  foo   bar " = "foo-bar-" ∧
    standardize_key "  foo   bar " ≠ "-foo-bar-" := by
  constructor <;> decide

/-- C3 (amended): for every key not present in the standardization table
(case-insensitively), `standardize_key` maps the key to ASCII lowercase
and collapses every whitespace run to a single `'-'`, dropping leading
whitespace entirely (no leading `'-'`); trailing whitespace yields a
trailing `'-'`. -/
theorem claim_C3_amended (key : String)
    (h : headerMappings.find?
      (fun e => eqIgnoreAsciiCase key.toList e.1.toList) = none) :
    standardize_key key = specStandardizeMiss key := by
  unfold standardize_key
  rw [h]
  unfold specStandardizeMiss
  rw [stdFold_start key.toList false]

/-- Witness for the amended C3 at `"UNKNOWN FIELD"` (a table miss),
which standardizes to `"unknown-field"`. -/
theorem claim_C3_amended_witness :
    standardize_key "UNKNOWN FIELD" = specStandardizeMiss "UNKNOWN FIELD" ∧
    specStandardizeMiss "UNKNOWN FIELD" = "unknown-field" :=
  ⟨claim_C3_amended _ (by decide), by decide⟩

/-! ### Lemmas about memFind, mapMEx and the metadata map -/

theorem memFind_none_of_drop (pat l : List Nat) (n : Nat)
    (h : memFind pat l = none) : memFind pat (l.drop n) = none := by
  cases hm : memFind pat (l.drop n) with
  | none => rfl
  | some j =>
      have hp := memFind_some_prefix hm
      rw [List.drop_drop] at hp
      exact absurd hp ( memFind_none_no_prefix h _)

theorem mapMEx_ok_mem {α β ε : Type} (f : α → Except ε β) :
    ∀ {l : List α} {ys : List β}, mapMEx f l = .ok ys →
      ∀ {a : α}, a ∈ l → ∃ b, f a = .ok b := by
  intro l
  induction l with
  | nil => intro ys _ a ha; cases ha
  | cons x xs ih =>
      intro ys h a ha
      unfold mapMEx at h
      cases hx : f x with
      | error e => rw [hx] at h; simp at h
      | ok b =>
          rw [hx] at h
          cases hxs : mapMEx f xs with
          | error e => rw [hxs] at h; simp at h
          | ok bs =>
              rcases List.mem_cons.mp ha with rfl | hmem
              · exact ⟨b, hx⟩
              · exact ih hxs hmem

theorem lookupMV_updateMV_of_some :
    ∀ (m : List (String × MetadataValue)) (k : String) (w v : MetadataValue),
      lookupMV m k = some w → lookupMV (updateMV m k v) k = some v := by
  intro m k w v h
  induction m with
  | nil => simp [lookupMV] at h
  | cons e rest ih =>
      by_cases he : e.1 = k
      · simp [lookupMV, updateMV, he]
      · rw [lookupMV, if_neg he] at h
        rw [updateMV, if_neg he, lookupMV, if_neg he]
        exact ih h

theorem lookupMV_append_new :
    ∀ (m : List (String × MetadataValue)) (k : String) (v : MetadataValue),
      lookupMV m k = none → lookupMV (m ++ [(k, v)]) k = some v := by
  intro m k v h
  induction m with
  | nil => simp [lookupMV]
  | cons e rest ih =>
      rw [lookupMV] at h
      split at h
      · exact absurd h (by simp)
      · rw [List.cons_append, lookupMV]
        rw [if_neg (by assumption)]
        exact ih h

theorem insert_or_append_list
    {m : List (String × MetadataValue)} {k : String} {l : List MetadataValue}
    (h : lookupMV m k = some (.list l)) (v : MetadataValue) :
    lookupMV (insert_or_append m k v) k = some (.list (l ++ [v])) := by
  unfold insert_or_append
  rw [h]
  exact lookupMV_updateMV_of_some m k _ _ h

theorem insert_or_append_scalar
    {m : List (String × MetadataValue)} {k : String} {v0 : MetadataValue}
    (h : lookupMV m k = some v0) (hnl : ∀ l, v0 ≠ .list l) (v : MetadataValue) :
    lookupMV (insert_or_append m k v) k = some (.list [v0, v]) := by
  unfold insert_or_append
  rw [h]
  cases v0 with
  | list l => exact absurd rfl (hnl l)
  | str s => exact lookupMV_updateMV_of_some m k _ _ h
  | obj o => exact lookupMV_updateMV_of_some m k _ _ h

theorem foldl_insert_or_append {k : String} :
    ∀ (vs : List MetadataValue) (m : List (String × MetadataValue))
      (l : List MetadataValue), lookupMV m k = some (.list l) →
      lookupMV (vs.foldl (fun acc v => insert_or_append acc k v) m) k =
        some (.list (l ++ vs)) := by
  intro vs
  induction vs with
  | nil => intro m l h; simpa using h
  | cons v vs ih =>
      intro m l h
      rw [List.foldl_cons]
      have := ih (insert_or_append m k v) (l ++ [v]) (insert_or_append_list h v)
      simpa using this

/-! ### Claim C8 -/

/-- C8: duplicate-key promotion.  (1) assigning to a key holding a
scalar (string or object) turns it into the two-element list
`[original, new]`; (2) assigning to a key holding a list appends;
(3) consequently, after assigning duplicates `v1 … vN` to a key that
held the scalar `v0`, the key holds `[v0, v1, …, vN]` — the original at
index 0, the N-th duplicate at index N. -/
theorem claim_C8_insert_or_append :
    (∀ (m : List (String × MetadataValue)) (k : String) (v0 v1 : MetadataValue),
        lookupMV m k = some v0 → (∀ l, v0 ≠ .list l) →
        lookupMV (insert_or_append m k v1) k = some (.list [v0, v1])) ∧
    (∀ (m : List (String × MetadataValue)) (k : String)
        (l : List MetadataValue) (w : MetadataValue),
        lookupMV m k = some (.list l) →
        lookupMV (insert_or_append m k w) k = some (.list (l ++ [w]))) ∧
    (∀ (m : List (String × MetadataValue)) (k : String) (v0 : MetadataValue)
        (vs : List MetadataValue),
        lookupMV m k = some v0 → (∀ l, v0 ≠ .list l) → vs ≠ [] →
        lookupMV (vs.foldl (fun acc v => insert_or_append acc k v) m) k =
          some (.list (v0 :: vs))) := by
  refine ⟨fun m k v0 v1 h hnl => insert_or_append_scalar h hnl v1,
    fun m k l w h => insert_or_append_list h w, ?_⟩
  intro m k v0 vs h hnl hvs
  cases vs with
  | nil => exact absurd rfl hvs
  | cons v1 vs =>
      rw [List.foldl_cons]
      have h1 := insert_or_append_scalar h hnl v1
      have := foldl_insert_or_append vs (insert_or_append m k v1) [v0, v1] h1
      simpa using this

/-- Witness for C8: key `"a"` holds the scalar `"x"`; after the
duplicates `"y"`, `"z"` it holds the list `["x", "y", "z"]`. -/
theorem claim_C8_witness :
    lookupMV
      (([MetadataValue.str "y", MetadataValue.str "z"].foldl
        (fun acc v => insert_or_append acc "a" v)
        [("a", MetadataValue.str "x")])) "a" =
      some (.list [.str "x", .str "y", .str "z"]) :=
  claim_C8_insert_or_append.2.2 _ _ _ _ rfl
    (fun l h => by cases h) (by simp)

/-! ### Claim C5 -/

/-- C5: (1) a document span (as delivered by the boundary scan) that
contains no `<TEXT>` tag makes the whole `parse_sgml` call return an
error — no partial result, since the return type carries either a full
`ParsedSubmission` or an error; (2) a span with `<TEXT>` but without
`</TEXT>` parses successfully, the raw payload extending to the end of
the span (`doc.drop (ts + 6)` where `ts` is the `<TEXT>` position). -/
theorem claim_C5_structural :
    (∀ (data : List Nat) (options : ParseOptions) (s e : Nat),
        (s, e) ∈ find_document_boundaries data →
        memFind [60, 84, 69, 88, 84, 62] ((data.take e).drop s) = none →
        ∃ err, parse_sgml data options = .error err) ∧
    (∀ (doc : List Nat) (fmt : SubmissionFormat) (std : Bool) (ts : Nat),
        memFind [60, 84, 69, 88, 84, 62] doc = some ts →
        memFind [60, 47, 84, 69, 88, 84, 62] doc = none →
        ∃ m : DocumentMetadata, parse_single_document doc fmt std =
          .ok (m,
            if is_uuencoded (doc.drop (ts + 6)) = true then
              decode_uuencoded (doc.drop (ts + 6))
            else clean_document_content (doc.drop (ts + 6)) fmt false)) := by
  constructor
  · intro data options s e hmem hmiss
    have hf : ∀ (fmt : SubmissionFormat) (std : Bool),
        parse_single_document ((data.take e).drop s) fmt std =
          .error (.invalidStructure "Missing <TEXT> tag") := by
      intro fmt std
      unfold parse_single_document
      rw [hmiss]
    unfold parse_sgml
    simp only [parse_submission_metadata]
    cases hm : mapMEx
        (fun se => parse_single_document ((data.take se.2).drop se.1)
          (detect_format (data.take
            (((find_document_boundaries data).head?.map Prod.fst).getD data.length)))
          options.standardize_metadata)
        (find_document_boundaries data) with
    | error e2 => exact ⟨e2, rfl⟩
    | ok ys =>
        obtain ⟨b, hb⟩ := mapMEx_ok_mem _ hm hmem
        rw [hf _ _] at hb
        cases hb
  · intro doc fmt std ts hts hne
    have hne' : memFind [60, 47, 84, 69, 88, 84, 62] (doc.drop (ts + 6)) = none :=
      memFind_none_of_drop _ _ _ hne
    refine ⟨{ parse_document_metadata ((doc.take ts).drop 10) std with
        size_bytes := (if is_uuencoded (doc.drop (ts + 6)) = true then
            decode_uuencoded (doc.drop (ts + 6))
          else clean_document_content (doc.drop (ts + 6)) fmt false).length }, ?_⟩
    simp only [parse_single_document, hts, hne', List.take_length]

/-- Witness for C5: the span `"<DOCUMENT>x</DOCUMENT>"` has no `<TEXT>`
and makes the whole parse fail; the span `"<DOCUMENT><TEXT>abc"` has no
`</TEXT>` and parses with the payload running to the end of the span. -/
theorem claim_C5_witness :
    (∃ err, parse_sgml (strBytes "<DOCUMENT>x</DOCUMENT>") ⟨[], false, true, true⟩ =
        .error err) ∧
    (∃ m : DocumentMetadata,
        parse_single_document (strBytes "<DOCUMENT><TEXT>abc") .archive true =
          .ok (m,
            if is_uuencoded ((strBytes "<DOCUMENT><TEXT>abc").drop (10 + 6)) = true then
              decode_uuencoded ((strBytes "<DOCUMENT><TEXT>abc").drop (10 + 6))
            else
              clean_document_content ((strBytes "<DOCUMENT><TEXT>abc").drop (10 + 6))
                .archive false)) :=
  ⟨claim_C5_structural.1 _ ⟨[], false, true, true⟩ 0 22 (by decide) (by decide),
   claim_C5_structural.2 _ .archive true 10 (by decide) (by decide)⟩

/-! ### Claim C9 -/

/-- C9: for every input and options, a successful parse satisfies
`payloads.length = metadata.documents.length` whenever no filter is set
or `keep_filtered_metadata` is false; when `keep_filtered_metadata` is
true and a non-empty filter is set, the metadata of ALL documents is
retained while the payload list is the subsequence of a full parallel
payload list indexed by the positions whose type field matches the
filter. -/
theorem claim_C9_filter_parallelism (data : List Nat) (options : ParseOptions)
    (sub : ParsedSubmission) (h : parse_sgml data options = .ok sub) :
    (options.filter_document_types = [] ∨ options.keep_filtered_metadata = false →
      sub.documents.length = sub.metadata.documents.length) ∧
    (options.filter_document_types ≠ [] → options.keep_filtered_metadata = true →
      ∃ docs0 : List (List Nat), docs0.length = sub.metadata.documents.length ∧
        sub.documents = (filterIndices options sub.metadata.documents).map
          (fun i => docs0.getD i [])) := by
  unfold parse_sgml at h
  simp only [parse_submission_metadata] at h
  cases hm : mapMEx
      (fun se => parse_single_document ((data.take se.2).drop se.1)
        (detect_format (data.take
          (((find_document_boundaries data).head?.map Prod.fst).getD data.length)))
        options.standardize_metadata)
      (find_document_boundaries data) with
  | error e2 => rw [hm] at h; cases h
  | ok parsedDocs =>
      rw [hm] at h
      injection h with h
      subst h
      constructor
      · rintro (hfe | hkf)
        · simp [apply_filter, hfe]
        · by_cases hfe : options.filter_document_types = []
          · simp [apply_filter, hfe]
          · simp [apply_filter, hfe, hkf]
      · intro hfne hkt
        refine ⟨parsedDocs.map Prod.snd, ?_, ?_⟩
        · simp [apply_filter, hfne, hkt]
        · simp [apply_filter, hfne, hkt]

/-- Witness for C9: a two-document submission filtered to type `10-K`
with `keep_filtered_metadata = true` keeps both metadata entries and one
payload. -/
theorem claim_C9_witness :
    (c9Opts.filter_document_types = [] ∨ c9Opts.keep_filtered_metadata = false →
      c9Sub.documents.length = c9Sub.metadata.documents.length) ∧
    (c9Opts.filter_document_types ≠ [] → c9Opts.keep_filtered_metadata = true →
      ∃ docs0 : List (List Nat), docs0.length = c9Sub.metadata.documents.length ∧
        c9Sub.documents = (filterIndices c9Opts c9Sub.metadata.documents).map
          (fun i => docs0.getD i [])) :=
  claim_C9_filter_parallelism c9Data c9Opts c9Sub rfl

/-! ### Length lemmas for the serializer and the tar writer -/

theorem utf8Encode_length (s : List Char) : (utf8Encode s).length = utf8Len s := by
  unfold utf8Encode utf8Len charUtf8Len
  rw [List.length_flatten, List.map_map]
  rfl

theorem utf8Len_append (a b : List Char) :
    utf8Len (a ++ b) = utf8Len a + utf8Len b := by
  unfold utf8Len
  rw [List.map_append, List.sum_append]

theorem utf8Len_strAppend (a b : String) :
    utf8Len (a ++ b).toList = utf8Len a.toList + utf8Len b.toList := by
  rw [show (a ++ b).toList = a.toList ++ b.toList from String.data_append a b]
  exact utf8Len_append _ _

theorem jsonEscapeChar_digitChar :
    ∀ d < 10, jsonEscapeChar (Char.ofNat (48 + d)) = [Char.ofNat (48 + d)] := by
  decide

theorem charUtf8Len_digitChar :
    ∀ d < 10, charUtf8Len (Char.ofNat (48 + d)) = 1 := by
  decide

theorem jsonEscape_id_of (s : List Char)
    (h : ∀ c ∈ s, jsonEscapeChar c = [c]) : jsonEscape s = s := by
  induction s with
  | nil => rfl
  | cons c cs ih =>
      unfold jsonEscape at ih ⊢
      rw [List.map_cons, List.flatten_cons, h c (List.mem_cons_self c cs),
        ih (fun x hx => h x (List.mem_cons_of_mem c hx))]
      rfl

theorem utf8Len_eq_length_of (s : List Char)
    (h : ∀ c ∈ s, charUtf8Len c = 1) : utf8Len s = s.length := by
  induction s with
  | nil => rfl
  | cons c cs ih =>
      unfold utf8Len at ih ⊢
      rw [List.map_cons, List.sum_cons, h c (List.mem_cons_self c cs),
        ih (fun x hx => h x (List.mem_cons_of_mem c hx))]
      simp [Nat.add_comm]

theorem pad10_toList (n : Nat) (h : n < 10 ^ 10) :
    (pad10 n).toList =
      (List.range 10).map (fun i => Char.ofNat (48 + n / 10 ^ (9 - i) % 10)) := by
  rw [pad10, if_pos h]
  rfl

theorem pad10_mem_digit (n : Nat) (h : n < 10 ^ 10) :
    ∀ c ∈ (pad10 n).toList, ∃ d, d < 10 ∧ c = Char.ofNat (48 + d) := by
  rw [pad10_toList n h]
  intro c hc
  obtain ⟨i, -, rfl⟩ := List.mem_map.mp hc
  exact ⟨n / 10 ^ (9 - i) % 10, Nat.mod_lt _ (by omega), rfl⟩

theorem pad10_length (n : Nat) (h : n < 10 ^ 10) :
    (pad10 n).toList.length = 10 := by
  rw [pad10_toList n h]
  simp

theorem utf8Len_jsonString_digits (s : String)
    (hd : ∀ c ∈ s.toList, ∃ d, d < 10 ∧ c = Char.ofNat (48 + d)) :
    utf8Len (jsonString s).toList = s.toList.length + 2 := by
  have hesc : jsonEscape s.toList = s.toList :=
    jsonEscape_id_of _ (by
      intro c hc
      obtain ⟨d, hd10, rfl⟩ := hd c hc
      exact jsonEscapeChar_digitChar d hd10)
  have hlen : utf8Len s.toList = s.toList.length :=
    utf8Len_eq_length_of _ (by
      intro c hc
      obtain ⟨d, hd10, rfl⟩ := hd c hc
      exact charUtf8Len_digitChar d hd10)
  unfold jsonString
  rw [utf8Len_strAppend, utf8Len_strAppend]
  show utf8Len ['"'] + (utf8Len (jsonEscape s.toList) + utf8Len ['"']) = _
  rw [hesc, hlen]
  simp [utf8Len, charUtf8Len, utf8EncodeChar]
  omega

theorem utf8Len_jsonString_pad10 (n : Nat) (h : n < 10 ^ 10) :
    utf8Len (jsonString (pad10 n)).toList = 12 := by
  rw [utf8Len_jsonString_digits _ (pad10_mem_digit n h), pad10_length n h]

theorem utf8Len_jsonString_placeholder :
    utf8Len (jsonString "9999999999").toList = 12 := by
  decide

/-- Strings whose byte lengths agree pairwise comma-join to equal byte
lengths. -/
theorem commaJoin_utf8Len_congr :
    ∀ {l1 l2 : List String},
      List.Forall₂ (fun a b => utf8Len a.toList = utf8Len b.toList) l1 l2 →
      utf8Len (commaJoin l1).toList = utf8Len (commaJoin l2).toList := by
  intro l1 l2 h
  induction h with
  | nil => rfl
  | cons hab htail ih =>
      rename_i a b as_ bs
      cases htail with
      | nil => simpa [commaJoin] using hab
      | cons hcd htail2 =>
          rename_i c d cs ds
          show utf8Len (_ ++ "," ++ _).toList = utf8Len (_ ++ "," ++ _).toList
          rw [utf8Len_strAppend, utf8Len_strAppend, utf8Len_strAppend,
            utf8Len_strAppend, hab]
          have : utf8Len (commaJoin (c :: cs)).toList =
              utf8Len (commaJoin (d :: ds)).toList := ih
          omega

theorem natOfDigits_pad10 (n : Nat) (h : n < 10 ^ 10) :
    natOfDigits (pad10 n).toList = n := by
  rw [pad10_toList n h]
  have htn : ∀ d < 10, (Char.ofNat (48 + d)).toNat = 48 + d := by decide
  unfold natOfDigits
  rw [show (10 : Nat) = 9 + 1 from rfl, List.range_succ]
  rw [show (9 : Nat) = 8 + 1 from rfl, List.range_succ]
  rw [show (8 : Nat) = 7 + 1 from rfl, List.range_succ]
  rw [show (7 : Nat) = 6 + 1 from rfl, List.range_succ]
  rw [show (6 : Nat) = 5 + 1 from rfl, List.range_succ]
  rw [show (5 : Nat) = 4 + 1 from rfl, List.range_succ]
  rw [show (4 : Nat) = 3 + 1 from rfl, List.range_succ]
  rw [show (3 : Nat) = 2 + 1 from rfl, List.range_succ]
  rw [show (2 : Nat) = 1 + 1 from rfl, List.range_succ]
  rw [show (1 : Nat) = 0 + 1 from rfl, List.range_succ]
  simp only [List.range_zero, List.nil_append, List.map_append, List.map_cons,
    List.map_nil, List.foldl_append, List.foldl_cons, List.foldl_nil]
  rw [htn _ (Nat.mod_lt _ (by omega)), htn _ (Nat.mod_lt _ (by omega)),
    htn _ (Nat.mod_lt _ (by omega)), htn _ (Nat.mod_lt _ (by omega)),
    htn _ (Nat.mod_lt _ (by omega)), htn _ (Nat.mod_lt _ (by omega)),
    htn _ (Nat.mod_lt _ (by omega)), htn _ (Nat.mod_lt _ (by omega)),
    htn _ (Nat.mod_lt _ (by omega)), htn _ (Nat.mod_lt _ (by omega))]
  simp only [Nat.add_sub_cancel_left]
  omega

theorem forall₂_append_my {α β : Type} {R : α → β → Prop} :
    ∀ {l1 u1 : List α} {l2 u2 : List β}, List.Forall₂ R l1 l2 →
      List.Forall₂ R u1 u2 → List.Forall₂ R (l1 ++ u1) (l2 ++ u2) := by
  intro l1 u1 l2 u2 h1 h2
  induction h1 with
  | nil => simpa using h2
  | cons hab ht ih => exact List.Forall₂.cons hab ih

theorem forall₂_map_my {α β γ δ : Type} (P : γ → δ → Prop) (f : α → γ) (g : β → δ) :
    ∀ {l1 : List α} {l2 : List β}, List.Forall₂ (fun a b => P (f a) (g b)) l1 l2 →
      List.Forall₂ P (l1.map f) (l2.map g) := by
  intro l1 l2 h
  induction h with
  | nil => exact List.Forall₂.nil
  | cons hab ht ih => exact List.Forall₂.cons hab ih

/-- The byte length of a document's JSON depends on the offset strings
only through the byte lengths of their JSON literals. -/
theorem serDoc_utf8Len_congr (d : DocumentMetadata) (s1 e1 s2 e2 : String)
    (hs : utf8Len (jsonString s1).toList = utf8Len (jsonString s2).toList)
    (he : utf8Len (jsonString e1).toList = utf8Len (jsonString e2).toList) :
    utf8Len (serDoc { d with start_byte := some s1, end_byte := some e1 }).toList =
    utf8Len (serDoc { d with start_byte := some s2, end_byte := some e2 }).toList := by
  unfold serDoc
  rw [utf8Len_strAppend, utf8Len_strAppend, utf8Len_strAppend, utf8Len_strAppend]
  have hcj : utf8Len (commaJoin (docEntries
      { d with start_byte := some s1, end_byte := some e1 })).toList =
      utf8Len (commaJoin (docEntries
      { d with start_byte := some s2, end_byte := some e2 })).toList := by
    apply commaJoin_utf8Len_congr
    unfold docEntries
    refine forall₂_append_my (forall₂_append_my (forall₂_append_my
      (List.forall₂_same.mpr (fun x _ => rfl))
      (List.forall₂_same.mpr (fun x _ => rfl))) ?_) ?_
    · refine List.Forall₂.cons ?_ List.Forall₂.nil
      simp only [utf8Len_strAppend, hs]
    · refine List.Forall₂.cons ?_ List.Forall₂.nil
      simp only [utf8Len_strAppend, he]
  omega

/-- The byte length of the submission JSON depends on the documents only
through the byte lengths of their JSONs. -/
theorem serSub_utf8Len_congr (fields : List (String × MetadataValue))
    (docs1 docs2 : List DocumentMetadata)
    (h : List.Forall₂
      (fun a b => utf8Len (serDoc a).toList = utf8Len (serDoc b).toList)
      docs1 docs2) :
    utf8Len (serSub ⟨fields, docs1⟩).toList =
      utf8Len (serSub ⟨fields, docs2⟩).toList := by
  unfold serSub
  rw [utf8Len_strAppend, utf8Len_strAppend, utf8Len_strAppend, utf8Len_strAppend]
  have hcj : utf8Len (commaJoin (fields.map
        (fun e => jsonString e.1 ++ ":" ++ serValue e.2)
          ++ [jsonString "documents" ++ ":" ++ "[" ++
              commaJoin (docs1.map serDoc) ++ "]"])).toList =
      utf8Len (commaJoin (fields.map
        (fun e => jsonString e.1 ++ ":" ++ serValue e.2)
          ++ [jsonString "documents" ++ ":" ++ "[" ++
              commaJoin (docs2.map serDoc) ++ "]"])).toList := by
    apply commaJoin_utf8Len_congr
    refine forall₂_append_my (List.forall₂_same.mpr (fun x _ => rfl)) ?_
    refine List.Forall₂.cons ?_ List.Forall₂.nil
    simp only [utf8Len_strAppend]
    have := commaJoin_utf8Len_congr
      (forall₂_map_my (fun x y => utf8Len x.toList = utf8Len y.toList)
        serDoc serDoc h)
    omega
  simp only [hcj]

/-- Every document of `calcPositions` output serializes to the same byte
length as its placeholder original, provided all computed offsets stay
below `10^10`. -/
theorem calcPositions_forall₂ :
    ∀ (contents : List (List Nat)) (docs : List DocumentMetadata) (current : Nat),
      contents.length ≤ docs.length →
      (∀ d ∈ docs, d.start_byte = some "9999999999" ∧
        d.end_byte = some "9999999999") →
      current + tarDocsSize contents < 10 ^ 10 →
      List.Forall₂
        (fun a b => utf8Len (serDoc a).toList = utf8Len (serDoc b).toList)
        docs (calcPositions docs contents current) := by
  intro contents
  induction contents with
  | nil =>
      intro docs current _ _ _
      rw [calcPositions]
      exact List.forall₂_same.mpr (fun x _ => rfl)
  | cons c cs ih =>
      intro docs current hlen hph hbound
      cases docs with
      | nil => simp at hlen
      | cons d ds =>
          rw [calcPositions]
          have hbc : tarDocsSize (c :: cs) =
              512 + c.length + pad_to_block c.length + tarDocsSize cs := rfl
          refine List.Forall₂.cons ?_
            (ih ds _ (by simpa using hlen)
              (fun x hx => hph x (List.mem_cons_of_mem d hx)) (by omega))
          obtain ⟨h1, h2⟩ := hph d (List.mem_cons_self d ds)
          have hd : d = { d with
              start_byte := some "9999999999"
              end_byte := some "9999999999" } := by
            obtain ⟨fs, sb, st, en⟩ := d
            change st = some "9999999999" at h1
            change en = some "9999999999" at h2
            subst h1
            subst h2
            rfl
          conv_lhs => rw [hd]
          exact serDoc_utf8Len_congr d "9999999999" "9999999999" _ _
            (by rw [utf8Len_jsonString_placeholder,
                utf8Len_jsonString_pad10 _ (by omega)])
            (by rw [utf8Len_jsonString_placeholder,
                utf8Len_jsonString_pad10 _ (by omega)])

theorem calcPositions_get? :
    ∀ (contents : List (List Nat)) (docs : List DocumentMetadata)
      (current k : Nat), contents.length ≤ docs.length → k < contents.length →
      (calcPositions docs contents current).get? k = some
        { docs.getD k default with
          start_byte :=
            some (pad10 (current + tarDocsSize (contents.take k) + 512))
          end_byte :=
            some (pad10 (current + tarDocsSize (contents.take k) + 512 +
              (contents.getD k []).length)) } := by
  intro contents
  induction contents with
  | nil => intro docs current k _ hk; simp at hk
  | cons c cs ih =>
      intro docs current k hlen hk
      cases docs with
      | nil => simp at hlen
      | cons d ds =>
          rw [calcPositions]
          cases k with
          | zero => simp [tarDocsSize]
          | succ k =>
              have harg : current + 512 + c.length + pad_to_block c.length +
                  tarDocsSize (cs.take k) + 512 =
                  current + tarDocsSize ((c :: cs).take (k + 1)) + 512 := by
                rw [List.take_succ_cons]
                show _ = current + (512 + c.length + pad_to_block c.length +
                  tarDocsSize (cs.take k)) + 512
                omega
              have := ih ds (current + 512 + c.length + pad_to_block c.length) k
                (by simpa using hlen) (by simpa using hk)
              rw [List.get?_cons_succ, this, harg]
              simp

theorem tarDocsSize_take_bound :
    ∀ (docs : List (List Nat)) (k : Nat), k < docs.length →
      tarDocsSize (docs.take k) + 512 + (docs.getD k []).length ≤
        tarDocsSize docs := by
  intro docs
  induction docs with
  | nil => intro k hk; simp at hk
  | cons c cs ih =>
      intro k hk
      cases k with
      | zero => simp [tarDocsSize]; omega
      | succ k =>
          have := ih k (by simpa using hk)
          simp only [List.take_succ_cons, List.getD_cons_succ, tarDocsSize]
          omega

theorem tarHeaderPre_length (f : String) (n : Nat)
    (h : (octal11 n).length = 11) : (tarHeaderPre f n).length = 512 := by
  unfold tarHeaderPre
  have hname : ((utf8Encode f.toList).take 100).length ≤ 100 := by
    simp
  simp only [List.length_append, List.length_replicate, List.length_map,
    List.length_cons, List.length_nil, h]
  have h1 : (strBytes "0000644").length = 7 := rfl
  have h2 : (strBytes "0000000").length = 7 := rfl
  have h3 : (strBytes "00000000000").length = 11 := rfl
  have h4 : (strBytes "ustar").length = 5 := rfl
  have h5 : (strBytes "00").length = 2 := rfl
  omega

theorem build_tar_header_length {f : String} {n : Nat} {h : List Nat}
    (hb : build_tar_header f n = some h) : h.length = 512 := by
  unfold build_tar_header at hb
  split at hb
  · cases hb
  · rename_i hoct
    dsimp only [] at hb
    split at hb
    · cases hb
    · rename_i hchk
      injection hb with hb
      subst hb
      have hpre := tarHeaderPre_length f n (by omega)
      simp only [List.length_append, List.length_take, List.length_drop,
        List.length_map, List.length_cons, List.length_nil, hpre]
      have : (octal6 (tarHeaderPre f n).sum).length = 6 := by omega
      omega

theorem write_tar_entry_some {f : String} {c e : List Nat}
    (h : write_tar_entry f c = some e) :
    ∃ hdr : List Nat, hdr.length = 512 ∧
      e = hdr ++ c ++ List.replicate (pad_to_block c.length) 0 := by
  unfold write_tar_entry at h
  cases hb : build_tar_header f c.length with
  | none => rw [hb] at h; cases h
  | some hdr =>
      rw [hb] at h
      injection h with h
      exact ⟨hdr, build_tar_header_length hb, h.symm⟩

/-- Payload extraction out of the byte stream written by the document
loop: at offset `tarDocsSize (docs.take k) + 512` (relative to the start
of the first document header) the bytes of payload `k` begin. -/
theorem wde_extract :
    ∀ (docs : List (List Nat)) (metas : List DocumentMetadata) (i0 : Nat)
      (bs tail : List Nat), writeDocEntries metas docs i0 = some bs →
      ∀ k, k < docs.length →
        ((bs ++ tail).drop (tarDocsSize (docs.take k) + 512)).take
            (docs.getD k []).length = docs.getD k [] := by
  intro docs
  induction docs with
  | nil => intro _ _ _ _ _ k hk; simp at hk
  | cons c cs ih =>
      intro metas i0 bs tail hw k hk
      unfold writeDocEntries at hw
      split at hw
      · cases hw
      · rename_i m hm
        split at hw
        · cases hw
        · rename_i entry hwte
          split at hw
          · cases hw
          · rename_i rest hrest
            injection hw with hw
            subst hw
            obtain ⟨hdr, hhdr, hentry⟩ := write_tar_entry_some hwte
            subst hentry
            cases k with
            | zero =>
                simp only [List.take_zero, tarDocsSize, List.getD_cons_zero,
                  Nat.zero_add, List.append_assoc]
                rw [show (512 : Nat) = hdr.length + 0 by omega,
                  List.drop_append, List.drop_zero,
                  List.take_append_of_le_length (by simp), List.take_length]
            | succ k =>
                have hel : (hdr ++ c ++
                    List.replicate (pad_to_block c.length) 0).length =
                    512 + c.length + pad_to_block c.length := by
                  simp [hhdr]; omega
                simp only [List.take_succ_cons, tarDocsSize,
                  List.getD_cons_succ]
                rw [List.append_assoc (hdr ++ c ++
                  List.replicate (pad_to_block c.length) 0) rest tail]
                rw [show 512 + c.length + pad_to_block c.length +
                    tarDocsSize (cs.take k) + 512 =
                    (hdr ++ c ++ List.replicate (pad_to_block c.length) 0).length +
                    (tarDocsSize (cs.take k) + 512) by omega]
                rw [List.drop_append]
                have := ih metas (i0 + 1) rest tail hrest k (by simpa using hk)
                simpa using this

theorem setPlaceholders_mem (m : SubmissionMetadata) :
    ∀ d ∈ (setPlaceholders m).documents,
      d.start_byte = some "9999999999" ∧ d.end_byte = some "9999999999" := by
  intro d hd
  unfold setPlaceholders at hd
  simp only [List.mem_map] at hd
  obtain ⟨x, _, h⟩ := hd
  subst h
  exact ⟨rfl, rfl⟩

theorem setPlaceholders_length (m : SubmissionMetadata) :
    (setPlaceholders m).documents.length = m.documents.length := by
  unfold setPlaceholders
  simp

/-- Replacing the document list by one of pointwise equal serialized
byte lengths keeps the submission JSON's byte length. -/
theorem serSub_update_len (m : SubmissionMetadata) (X : List DocumentMetadata)
    (h : List.Forall₂
      (fun a b => utf8Len (serDoc a).toList = utf8Len (serDoc b).toList)
      m.documents X) :
    utf8Len (serSub { m with documents := X }).toList =
      utf8Len (serSub m).toList := by
  obtain ⟨flds, docs⟩ := m
  exact (serSub_utf8Len_congr flds docs X h).symm

/-- Unfolding step of the document loop. -/
theorem writeDocEntries_cons (metas : List DocumentMetadata) (c : List Nat)
    (cs : List (List Nat)) (i : Nat) (m : DocumentMetadata) (e rest : List Nat)
    (hm : metas.get? i = some m)
    (he : write_tar_entry (docFilename m i) c = some e)
    (hr : writeDocEntries metas cs (i + 1) = some rest) :
    writeDocEntries metas (c :: cs) i = some (e ++ rest) := by
  unfold writeDocEntries
  split
  · rename_i heq
    rw [hm] at heq
    cases heq
  · rename_i m' heq
    rw [hm] at heq
    injection heq with heq
    subst heq
    split
    · rename_i heq2
      rw [he] at heq2
      cases heq2
    · rename_i e' heq2
      rw [he] at heq2
      injection heq2 with heq2
      subst heq2
      split
      · rename_i heq3
        rw [hr] at heq3
        cases heq3
      · rename_i rest' heq3
        rw [hr] at heq3
        injection heq3 with heq3
        subst heq3
        rfl

/-- Assembly of the writer from its three stages. -/
theorem write_to_tar_writer_eq (sub : ParsedSubmission)
    (md : SubmissionMetadata) (metaEntry docBytes : List Nat)
    (h1 : calculate_tar_positions sub.metadata sub.documents = some md)
    (h2 : write_tar_entry "metadata.json"
      (utf8Encode (serSub md).toList) = some metaEntry)
    (h3 : writeDocEntries md.documents sub.documents 0 = some docBytes) :
    write_to_tar_writer sub =
      some (metaEntry ++ docBytes ++ List.replicate 1024 0) := by
  unfold write_to_tar_writer
  split
  · rename_i heq
    rw [h1] at heq
    cases heq
  · rename_i md' heq
    rw [h1] at heq
    injection heq with heq
    subst heq
    dsimp only []
    split
    · rename_i heq2
      rw [h2] at heq2
      cases heq2
    · rename_i me heq2
      rw [h2] at heq2
      injection heq2 with heq2
      subst heq2
      split
      · rename_i heq3
        rw [h3] at heq3
        cases heq3
      · rename_i db heq3
        rw [h3] at heq3
        injection heq3 with heq3
        subst heq3
        rfl

/-- C1 (amended): the tar writer's archive is self-referential provided
the whole layout stays below `10^10` bytes, so every recorded offset
fits the ten-character placeholder width used by pass 1: for every
submission the writer accepts, and every document index `k`,
`calculate_tar_positions` records decimal strings whose values `S`, `E`
satisfy `E - S = payloads[k].length` and
`archive[S : E] = payloads[k]`; the start value is
`after_metadata + (per-document sizes of documents before k) + 512`
with `after_metadata = 512 + M + pad_to_512 M` and `M` the byte length
of the pass-1 JSON containing the `"9999999999"` placeholders. -/
theorem claim_C1_amended (sub : ParsedSubmission) (archive : List Nat)
    (h : write_to_tar_writer sub = some archive)
    (hbound : 512 + utf8Len (serSub (setPlaceholders sub.metadata)).toList +
      pad_to_block (utf8Len (serSub (setPlaceholders sub.metadata)).toList) +
      tarDocsSize sub.documents < 10 ^ 10) :
    ∃ md, calculate_tar_positions sub.metadata sub.documents = some md ∧
      ∀ k, k < sub.documents.length →
        ∃ dm s e, md.documents.get? k = some dm ∧
          dm.start_byte = some s ∧ dm.end_byte = some e ∧
          natOfDigits e.toList - natOfDigits s.toList =
            (sub.documents.getD k []).length ∧
          (archive.drop (natOfDigits s.toList)).take
              (natOfDigits e.toList - natOfDigits s.toList) =
            sub.documents.getD k [] := by
  unfold write_to_tar_writer at h
  split at h
  · cases h
  · rename_i md hcalc
    dsimp only [] at h
    split at h
    · cases h
    · rename_i metaEntry hme
      split at h
      · cases h
      · rename_i docBytes hwde
        injection h with h
        subst h
        refine ⟨md, hcalc, ?_⟩
        intro k hk
        unfold calculate_tar_positions at hcalc
        split at hcalc
        · cases hcalc
        · rename_i hlen
          dsimp only [] at hcalc
          injection hcalc with hmd
          have hM0 : sub.documents.length ≤
              (setPlaceholders sub.metadata).documents.length := by
            rw [setPlaceholders_length]
            omega
          have hf2 := calcPositions_forall₂ sub.documents
            (setPlaceholders sub.metadata).documents
            (512 + (utf8Len (serSub (setPlaceholders sub.metadata)).toList +
              pad_to_block
                (utf8Len (serSub (setPlaceholders sub.metadata)).toList)))
            hM0 (setPlaceholders_mem sub.metadata) (by omega)
          have hserlen : utf8Len (serSub md).toList =
              utf8Len (serSub (setPlaceholders sub.metadata)).toList := by
            rw [← hmd]
            exact serSub_update_len (setPlaceholders sub.metadata) _ hf2
          obtain ⟨hdr, hhdr, hmeq⟩ := write_tar_entry_some hme
          have hmbLen : (utf8Encode (serSub md).toList).length =
              utf8Len (serSub (setPlaceholders sub.metadata)).toList := by
            rw [utf8Encode_length, hserlen]
          have hmeLen : metaEntry.length =
              512 + (utf8Len (serSub (setPlaceholders sub.metadata)).toList +
                pad_to_block
                  (utf8Len (serSub (setPlaceholders sub.metadata)).toList)) := by
            rw [hmeq]
            simp only [List.length_append, List.length_replicate, hhdr, hmbLen]
            omega
          have hgd : md.documents.get? k = some
              { (setPlaceholders sub.metadata).documents.getD k default with
                start_byte := some (pad10
                  (512 + (utf8Len (serSub (setPlaceholders sub.metadata)).toList +
                    pad_to_block
                      (utf8Len (serSub (setPlaceholders sub.metadata)).toList)) +
                  tarDocsSize (sub.documents.take k) + 512))
                end_byte := some (pad10
                  (512 + (utf8Len (serSub (setPlaceholders sub.metadata)).toList +
                    pad_to_block
                      (utf8Len (serSub (setPlaceholders sub.metadata)).toList)) +
                  tarDocsSize (sub.documents.take k) + 512 +
                  (sub.documents.getD k []).length)) } := by
            rw [← hmd]
            exact calcPositions_get? sub.documents
              (setPlaceholders sub.metadata).documents
              (512 + (utf8Len (serSub (setPlaceholders sub.metadata)).toList +
                pad_to_block
                  (utf8Len (serSub (setPlaceholders sub.metadata)).toList)))
              k hM0 hk
          have htake := tarDocsSize_take_bound sub.documents k hk
          have hS : 512 + (utf8Len (serSub (setPlaceholders sub.metadata)).toList +
              pad_to_block
                (utf8Len (serSub (setPlaceholders sub.metadata)).toList)) +
              tarDocsSize (sub.documents.take k) + 512 < 10 ^ 10 := by omega
          have hE : 512 + (utf8Len (serSub (setPlaceholders sub.metadata)).toList +
              pad_to_block
                (utf8Len (serSub (setPlaceholders sub.metadata)).toList)) +
              tarDocsSize (sub.documents.take k) + 512 +
              (sub.documents.getD k []).length < 10 ^ 10 := by omega
          refine ⟨_, _, _, hgd, rfl, rfl, ?_, ?_⟩
          · rw [natOfDigits_pad10 _ hS, natOfDigits_pad10 _ hE]
            omega
          · rw [natOfDigits_pad10 _ hS, natOfDigits_pad10 _ hE]
            rw [show 512 + (utf8Len (serSub (setPlaceholders sub.metadata)).toList +
                pad_to_block
                  (utf8Len (serSub (setPlaceholders sub.metadata)).toList)) +
                tarDocsSize (sub.documents.take k) + 512 +
                (sub.documents.getD k []).length -
                (512 + (utf8Len (serSub (setPlaceholders sub.metadata)).toList +
                  pad_to_block
                    (utf8Len (serSub (setPlaceholders sub.metadata)).toList)) +
                tarDocsSize (sub.documents.take k) + 512) =
                (sub.documents.getD k []).length by omega]
            rw [List.append_assoc]
            rw [show 512 + (utf8Len (serSub (setPlaceholders sub.metadata)).toList +
                pad_to_block
                  (utf8Len (serSub (setPlaceholders sub.metadata)).toList)) +
                tarDocsSize (sub.documents.take k) + 512 =
                metaEntry.length + (tarDocsSize (sub.documents.take k) + 512) by
              rw [hmeLen]
              omega]
            rw [List.drop_append]
            exact wde_extract sub.documents md.documents 0 docBytes
              (List.replicate 1024 0) hwde k hk

/-- The position pass on `ceSub` yields the explicit `ceMd`. -/
theorem ce_calc :
    calculate_tar_positions ceSub.metadata ceSub.documents = some ceMd := by
  unfold calculate_tar_positions
  rw [if_neg (by decide)]
  dsimp only []
  rw [show utf8Len (serSub (setPlaceholders ceSub.metadata)).toList = 512 from rfl]
  rw [show pad_to_block 512 = 0 from rfl]
  rw [show ceSub.documents =
    [List.replicate 2147483648 0, List.replicate 8589934080 0] from rfl]
  rw [show (setPlaceholders ceSub.metadata).documents =
    [⟨[("type", "A")], 0, some "9999999999", some "9999999999"⟩,
     ⟨[("type", "B")], 0, some "9999999999", some "9999999999"⟩] from rfl]
  simp only [calcPositions, List.length_replicate]
  rfl

/-- The metadata entry of the `ceSub` archive. -/
theorem ce_meta : write_tar_entry "metadata.json"
    (utf8Encode (serSub ceMd).toList) = some ceMetaEntry := rfl

theorem ce_h0 : build_tar_header "1.txt" 2147483648 = some ceHdr0 := rfl

theorem ce_h1 : build_tar_header "2.txt" 8589934080 = some ceHdr1 := rfl

theorem ce_wte0 :
    write_tar_entry "1.txt" (List.replicate 2147483648 0) = some ceDoc0 := by
  unfold write_tar_entry
  rw [List.length_replicate, ce_h0]
  rfl

theorem ce_wte1 :
    write_tar_entry "2.txt" (List.replicate 8589934080 0) = some ceDoc1 := by
  unfold write_tar_entry
  rw [List.length_replicate, ce_h1]
  rfl

/-- The document loop output on `ceSub`. -/
theorem ce_wde : writeDocEntries ceMd.documents
    [List.replicate 2147483648 0, List.replicate 8589934080 0] 0 =
    some (ceDoc0 ++ (ceDoc1 ++ [])) := by
  have h1 : writeDocEntries ceMd.documents [List.replicate 8589934080 0] 1 =
      some (ceDoc1 ++ []) :=
    writeDocEntries_cons _ _ _ _ _ _ _ rfl ce_wte1 rfl
  exact writeDocEntries_cons _ _ _ _ _ _ _ rfl ce_wte0 h1

/-- The full archive on `ceSub`. -/
theorem ce_write : write_to_tar_writer ceSub = some ceArchive :=
  write_to_tar_writer_eq ceSub ceMd ceMetaEntry (ceDoc0 ++ (ceDoc1 ++ []))
    ce_calc ce_meta ce_wde

/-- C1 (counterexample): on `ceSub` the writer succeeds and records, for
document 1, the ten-digit start `2147485696` and the eleven-digit end
`10737419776`; the eleventh digit makes the pass-2 JSON one byte longer
than pass 1, and since the pass-1 length is a multiple of 512 the whole
layout shifts by a full block: the archive slice at the recorded range
starts with the second document's tar header (byte `'2' = 50`), not the
payload (byte 0). -/
theorem claim_C1_counterexample :
    write_to_tar_writer ceSub = some ceArchive ∧
    calculate_tar_positions ceSub.metadata ceSub.documents = some ceMd ∧
    (ceMd.documents.getD 1 default).start_byte = some (pad10 2147485696) ∧
    (ceMd.documents.getD 1 default).end_byte = some (pad10 10737419776) ∧
    natOfDigits (pad10 2147485696).toList = 2147485696 ∧
    natOfDigits (pad10 10737419776).toList = 10737419776 ∧
    (ceArchive.drop 2147485696).take (10737419776 - 2147485696) ≠
      ceSub.documents.getD 1 [] := by
  refine ⟨ce_write, ce_calc, rfl, rfl, rfl, rfl, ?_⟩
  have hMEl : ceMetaEntry.length = 1536 := rfl
  have hD0l : ceDoc0.length = 2147484160 := by
    unfold ceDoc0
    rw [List.length_append, List.length_append, List.length_replicate,
      List.length_replicate, show ceHdr0.length = 512 from rfl]
  have hL : ((ceArchive.drop 2147485696).take (10737419776 - 2147485696)).get? 0 =
      some 50 := by
    rw [show (10737419776 - 2147485696 : Nat) = 8589934080 from rfl]
    rw [List.get?_take (show 0 < 8589934080 by norm_num)]
    unfold ceArchive
    rw [List.append_assoc]
    rw [show (2147485696 : Nat) = ceMetaEntry.length + 2147484160 by rw [hMEl]]
    rw [List.drop_append]
    rw [List.append_assoc]
    rw [show (2147484160 : Nat) = ceDoc0.length + 0 by rw [hD0l]]
    rw [List.drop_append, List.drop_zero]
    rfl
  have hR : (ceSub.documents.getD 1 []).get? 0 = some 0 := rfl
  intro heq
  rw [heq, hR] at hL
  cases hL

/-- Witness for C1 (amended): the single-document submission `c1wSub`
(payload `"ABC"`) satisfies the hypotheses and the conclusion of the
amended self-reference theorem. -/
theorem claim_C1_amended_witness :
    write_to_tar_writer c1wSub = some c1wArchive ∧
    (512 + utf8Len (serSub (setPlaceholders c1wSub.metadata)).toList +
      pad_to_block (utf8Len (serSub (setPlaceholders c1wSub.metadata)).toList) +
      tarDocsSize c1wSub.documents < 10 ^ 10) ∧
    (∃ md, calculate_tar_positions c1wSub.metadata c1wSub.documents = some md ∧
      ∀ k, k < c1wSub.documents.length →
        ∃ dm s e, md.documents.get? k = some dm ∧
          dm.start_byte = some s ∧ dm.end_byte = some e ∧
          natOfDigits e.toList - natOfDigits s.toList =
            (c1wSub.documents.getD k []).length ∧
          (c1wArchive.drop (natOfDigits s.toList)).take
              (natOfDigits e.toList - natOfDigits s.toList) =
            c1wSub.documents.getD k []) :=
  ⟨rfl, by decide, claim_C1_amended c1wSub c1wArchive rfl (by decide)⟩

/-- C2: the submission JSON is not a function of the field map's
contents.  `types.rs` stores `fields` in a `std::collections::HashMap`
and serde_json writes the entries in iteration order, which depends on
the hasher state and insertion history; the embedding keeps the map as
an association list in iteration order.  `c2m1` and `c2m2` hold the
same two entries (every lookup agrees) and the same document list, yet
serialize to different bytes — so equal maps do not guarantee equal
JSON, contradicting the stability sentence of the spec. -/
theorem claim_C2_nondeterministic :
    (∀ k, lookupMV c2m1.fields k = lookupMV c2m2.fields k) ∧
    c2m1.documents = c2m2.documents ∧
    serSub c2m1 ≠ serSub c2m2 := by
  refine ⟨?_, rfl, by decide⟩
  intro k
  by_cases h1 : k = "a"
  · subst h1
    rfl
  · by_cases h2 : k = "b"
    · subst h2
      rfl
    · have h1' : "a" ≠ k := fun h => h1 h.symm
      have h2' : "b" ≠ k := fun h => h2 h.symm
      simp [c2m1, c2m2, lookupMV, h1', h2']

/-! ### Claim C7: UU round-trip -/

theorem uuEncChar_toNat (v : Nat) : (uuEncChar v).toNat = 32 + v % 64 := by
  unfold uuEncChar Char.ofNat
  split
  · rfl
  · rename_i hv
    exact absurd (Or.inl (by omega)) hv

theorem uuEncChar_ascii (v : Nat) : (uuEncChar v).toNat < 128 := by
  have h := uuEncChar_toNat v
  omega

theorem uuEncChar_ne_lf (v : Nat) : uuEncChar v ≠ '\n' := by
  intro he
  have h := uuEncChar_toNat v
  rw [he] at h
  have h2 : ('\n').toNat = 10 := rfl
  omega

theorem uuEncChar_ne_cr (v : Nat) : uuEncChar v ≠ '\r' := by
  intro he
  have h := uuEncChar_toNat v
  rw [he] at h
  have h2 : ('\r').toNat = 13 := rfl
  omega

theorem uuLineKeep_enc (v : Nat) : uuLineKeep (uuEncChar v) = true := by
  unfold uuLineKeep
  rw [uuEncChar_toNat]
  have : v % 64 < 64 := by omega
  simp
  omega

/-- The loop accepts a stop state immediately. -/
theorem a2bLoop_zero (lb lc : Nat) (rest acc : List Nat) :
    a2bLoop 0 lb lc rest acc = .ok acc := by
  rw [a2bLoop.eq_def]
  rw [if_pos rfl]

/-- One character with no byte completed (`leftbits 0 -> 6`). -/
theorem a2bLoop_s0 (r lc b : Nat) (rest acc : List Nat) (hr : r ≠ 0)
    (hb1 : 32 ≤ b) (hb2 : b ≤ 96) :
    a2bLoop r 0 lc (b :: rest) acc =
      a2bLoop r 6 (lc * 64 + (b - 32) % 64) rest acc := by
  rw [a2bLoop]
  rw [if_neg hr]
  dsimp only []
  rw [if_neg (by omega)]
  rw [if_neg (show ¬ (b = 10 ∨ b = 13) by omega)]
  rw [if_neg (by omega : ¬ 8 ≤ 0 + 6)]

/-- One character completing a byte from `leftbits = 6`. -/
theorem a2bLoop_s6 (r lc b : Nat) (rest acc : List Nat) (hr : r ≠ 0)
    (hb1 : 32 ≤ b) (hb2 : b ≤ 96) :
    a2bLoop r 6 lc (b :: rest) acc =
      a2bLoop (r - 1) 4 ((lc * 64 + (b - 32) % 64) % 16) rest
        (acc ++ [(lc * 64 + (b - 32) % 64) / 16 % 256]) := by
  rw [a2bLoop]
  rw [if_neg hr]
  dsimp only []
  rw [if_neg (by omega)]
  rw [if_neg (show ¬ (b = 10 ∨ b = 13) by omega)]
  rw [if_pos (by omega : 8 ≤ 6 + 6)]
  norm_num

/-- One character completing a byte from `leftbits = 4`. -/
theorem a2bLoop_s4 (r lc b : Nat) (rest acc : List Nat) (hr : r ≠ 0)
    (hb1 : 32 ≤ b) (hb2 : b ≤ 96) :
    a2bLoop r 4 lc (b :: rest) acc =
      a2bLoop (r - 1) 2 ((lc * 64 + (b - 32) % 64) % 4) rest
        (acc ++ [(lc * 64 + (b - 32) % 64) / 4 % 256]) := by
  rw [a2bLoop]
  rw [if_neg hr]
  dsimp only []
  rw [if_neg (by omega)]
  rw [if_neg (show ¬ (b = 10 ∨ b = 13) by omega)]
  rw [if_pos (by omega : 8 ≤ 4 + 6)]
  norm_num

/-- One character completing a byte from `leftbits = 2`. -/
theorem a2bLoop_s2 (r lc b : Nat) (rest acc : List Nat) (hr : r ≠ 0)
    (hb1 : 32 ≤ b) (hb2 : b ≤ 96) :
    a2bLoop r 2 lc (b :: rest) acc =
      a2bLoop (r - 1) 0 0 rest
        (acc ++ [(lc * 64 + (b - 32) % 64) % 256]) := by
  rw [a2bLoop]
  rw [if_neg hr]
  dsimp only []
  rw [if_neg (by omega)]
  rw [if_neg (show ¬ (b = 10 ∨ b = 13) by omega)]
  rw [if_pos (by omega : 8 ≤ 2 + 6)]
  norm_num
  rw [Nat.mod_one]

/-- Decoding one padded-to-one byte group. -/
theorem a2bLoop_group1 (a : Nat) (rest acc : List Nat) (ha : a < 256) :
    a2bLoop 1 0 0 ((32 + a / 4) :: (32 + a % 4 * 16) :: rest) acc =
      .ok (acc ++ [a]) := by
  rw [a2bLoop_s0 _ _ _ _ _ (by omega) (by omega) (by omega)]
  rw [show 0 * 64 + (32 + a / 4 - 32) % 64 = a / 4 by omega]
  rw [a2bLoop_s6 _ _ _ _ _ (by omega) (by omega) (by omega)]
  rw [show (1 : Nat) - 1 = 0 by omega]
  rw [a2bLoop_zero]
  exact congrArg (fun z => Except.ok (acc ++ [z])) (by omega)

/-- Decoding one two-byte group. -/
theorem a2bLoop_group2 (a b : Nat) (rest acc : List Nat)
    (ha : a < 256) (hb : b < 256) :
    a2bLoop 2 0 0 ((32 + a / 4) :: (32 + (a % 4 * 16 + b / 16)) ::
        (32 + b % 16 * 4) :: rest) acc =
      .ok (acc ++ [a, b]) := by
  rw [a2bLoop_s0 _ _ _ _ _ (by omega) (by omega) (by omega)]
  rw [show 0 * 64 + (32 + a / 4 - 32) % 64 = a / 4 by omega]
  rw [a2bLoop_s6 _ _ _ _ _ (by omega) (by omega) (by omega)]
  rw [show (2 : Nat) - 1 = 1 by omega]
  rw [show (a / 4 * 64 + (32 + (a % 4 * 16 + b / 16) - 32) % 64) % 16 = b / 16
    by omega]
  rw [show (a / 4 * 64 + (32 + (a % 4 * 16 + b / 16) - 32) % 64) / 16 % 256 = a
    by omega]
  rw [a2bLoop_s4 _ _ _ _ _ (by omega) (by omega) (by omega)]
  rw [show (1 : Nat) - 1 = 0 by omega]
  rw [a2bLoop_zero]
  have h1 : (b / 16 * 64 + (32 + b % 16 * 4 - 32) % 64) / 4 % 256 = b := by omega
  rw [h1]
  simp

/-- Decoding one full three-byte group restores the loop invariant. -/
theorem a2bLoop_group3 (r a b c : Nat) (rest acc : List Nat)
    (ha : a < 256) (hb : b < 256) (hc : c < 256) :
    a2bLoop (r + 3) 0 0 ((32 + a / 4) :: (32 + (a % 4 * 16 + b / 16)) ::
        (32 + (b % 16 * 4 + c / 64)) :: (32 + c % 64) :: rest) acc =
      a2bLoop r 0 0 rest (acc ++ [a, b, c]) := by
  rw [a2bLoop_s0 _ _ _ _ _ (by omega) (by omega) (by omega)]
  rw [show 0 * 64 + (32 + a / 4 - 32) % 64 = a / 4 by omega]
  rw [a2bLoop_s6 _ _ _ _ _ (by omega) (by omega) (by omega)]
  rw [show r + 3 - 1 = r + 2 by omega]
  rw [show (a / 4 * 64 + (32 + (a % 4 * 16 + b / 16) - 32) % 64) % 16 = b / 16
    by omega]
  rw [show (a / 4 * 64 + (32 + (a % 4 * 16 + b / 16) - 32) % 64) / 16 % 256 = a
    by omega]
  rw [a2bLoop_s4 _ _ _ _ _ (by omega) (by omega) (by omega)]
  rw [show r + 2 - 1 = r + 1 by omega]
  rw [show (b / 16 * 64 + (32 + (b % 16 * 4 + c / 64) - 32) % 64) % 4 = c / 64
    by omega]
  rw [show (b / 16 * 64 + (32 + (b % 16 * 4 + c / 64) - 32) % 64) / 4 % 256 = b
    by omega]
  rw [a2bLoop_s2 _ _ _ _ _ (by omega) (by omega) (by omega)]
  rw [show r + 1 - 1 = r by omega]
  rw [show (c / 64 * 64 + (32 + c % 64 - 32) % 64) % 256 = c by omega]
  congr 1
  simp

/-- The strict loop decodes the minimal group characters of `bytes` back
to `bytes`, ignoring anything that follows. -/
theorem a2bLoop_minGroups : ∀ (bytes : List Nat), (∀ x ∈ bytes, x < 256) →
    ∀ (tail acc : List Nat),
    a2bLoop bytes.length 0 0 ((uuGroupsMin bytes).map Char.toNat ++ tail) acc =
      .ok (acc ++ bytes) := by
  intro bytes
  induction bytes using uuGroupsMin.induct with
  | case1 =>
      intro _ tail acc
      rw [show ([] : List Nat).length = 0 from rfl, a2bLoop_zero]
      simp
  | case2 a =>
      intro h tail acc
      have ha : a < 256 := h a (by simp)
      simp only [uuGroupsMin, List.map_cons, List.map_nil, List.cons_append,
        List.nil_append, uuEncChar_toNat]
      rw [show ([a] : List Nat).length = 1 from rfl]
      rw [show a / 4 % 64 = a / 4 by omega,
        show a % 4 * 16 % 64 = a % 4 * 16 by omega]
      exact a2bLoop_group1 a tail acc ha
  | case3 a b =>
      intro h tail acc
      have ha : a < 256 := h a (by simp)
      have hb : b < 256 := h b (by simp)
      simp only [uuGroupsMin, List.map_cons, List.map_nil, List.cons_append,
        List.nil_append, uuEncChar_toNat]
      rw [show ([a, b] : List Nat).length = 2 from rfl]
      rw [show a / 4 % 64 = a / 4 by omega,
        show (a % 4 * 16 + b / 16) % 64 = a % 4 * 16 + b / 16 by omega,
        show b % 16 * 4 % 64 = b % 16 * 4 by omega]
      exact a2bLoop_group2 a b tail acc ha hb
  | case4 a b c rest ih =>
      intro h tail acc
      have ha : a < 256 := h a (by simp)
      have hb : b < 256 := h b (by simp)
      have hc : c < 256 := h c (by simp)
      simp only [uuGroupsMin, List.map_cons, List.cons_append, List.length_cons,
        uuEncChar_toNat]
      rw [show rest.length + 1 + 1 + 1 = rest.length + 3 by omega]
      rw [show a / 4 % 64 = a / 4 by omega,
        show (a % 4 * 16 + b / 16) % 64 = a % 4 * 16 + b / 16 by omega,
        show (b % 16 * 4 + c / 64) % 64 = b % 16 * 4 + c / 64 by omega,
        show c % 64 % 64 = c % 64 by omega]
      rw [a2bLoop_group3 rest.length a b c _ acc ha hb hc]
      rw [ih (fun x hx => h x (by simp [hx])) tail (acc ++ [a, b, c])]
      congr 1
      simp

/-- The full groups are the minimal groups followed by the padding. -/
theorem uuGroups_eq_min_pad : ∀ c : List Nat,
    uuGroups c = uuGroupsMin c ++ uuPad c := by
  intro c
  induction c using uuGroups.induct with
  | case1 => rfl
  | case2 a => rfl
  | case3 a b => rfl
  | case4 a b c rest ih =>
      simp only [uuGroups, uuGroupsMin, uuPad, ih, List.cons_append]

/-- The minimal groups hold exactly the characters the decoder needs. -/
theorem uuGroupsMin_length : ∀ c : List Nat,
    (uuGroupsMin c).length = (c.length * 8 + 5) / 6 := by
  intro c
  induction c using uuGroupsMin.induct with
  | case1 => rfl
  | case2 a =>
      simp only [uuGroupsMin, List.length_cons, List.length_nil]
  | case3 a b =>
      simp only [uuGroupsMin, List.length_cons, List.length_nil]
  | case4 a b c rest ih =>
      simp only [uuGroupsMin, List.length_cons, List.length_cons,
        List.length_cons, List.length_cons, ih]
      omega

/-- Every group character is an encoding character. -/
theorem uuGroups_mem : ∀ (c : List Nat) (x : Char), x ∈ uuGroups c →
    ∃ v, x = uuEncChar v := by
  intro c
  induction c using uuGroups.induct with
  | case1 => intro x hx; simp [uuGroups] at hx
  | case2 a =>
      intro x hx
      simp only [uuGroups, List.mem_cons, List.not_mem_nil, or_false] at hx
      rcases hx with rfl | rfl | rfl | rfl <;> exact ⟨_, rfl⟩
  | case3 a b =>
      intro x hx
      simp only [uuGroups, List.mem_cons, List.not_mem_nil, or_false] at hx
      rcases hx with rfl | rfl | rfl | rfl <;> exact ⟨_, rfl⟩
  | case4 a b c rest ih =>
      intro x hx
      simp only [uuGroups, List.mem_cons] at hx
      rcases hx with rfl | rfl | rfl | rfl | hx
      · exact ⟨_, rfl⟩
      · exact ⟨_, rfl⟩
      · exact ⟨_, rfl⟩
      · exact ⟨_, rfl⟩
      · exact ih x hx

/-- Padding characters encode zero. -/
theorem uuPad_mem : ∀ (c : List Nat) (x : Char), x ∈ uuPad c →
    x = uuEncChar 0 := by
  intro c
  induction c using uuPad.induct with
  | case1 => intro x hx; simp [uuPad] at hx
  | case2 a =>
      intro x hx
      simp only [uuPad, List.mem_cons, List.not_mem_nil, or_false] at hx
      rcases hx with rfl | rfl <;> rfl
  | case3 a b =>
      intro x hx
      simp only [uuPad, List.mem_cons, List.not_mem_nil, or_false] at hx
      rcases hx with rfl <;> rfl
  | case4 a b c rest ih =>
      intro x hx
      simp only [uuPad] at hx
      exact ih x hx

/-- Every character of an encoded line is an encoding character. -/
theorem uuLine_mem (c : List Nat) (x : Char) (hx : x ∈ uuLine c) :
    ∃ v, x = uuEncChar v := by
  rcases List.mem_cons.mp hx with rfl | hx2
  · exact ⟨c.length, rfl⟩
  · exact uuGroups_mem c x hx2

/-- Evaluation of `a2b_uu` from its three computation facts. -/
theorem a2b_uu_eval (b0 : Nat) (rest binData : List Nat) (n : Nat)
    (hn : ((b0 + 256 - 32) % 256) % 64 = n)
    (hloop : a2bLoop n 0 0 rest [] = .ok binData)
    (hcheck : ((b0 :: rest).drop (1 + (n * 8 + 5) / 6)).all
      (fun b => b == 32 || b == 32 + 64 || b == 10 || b == 13) = true) :
    a2b_uu (b0 :: rest) = .ok binData := by
  unfold a2b_uu
  dsimp only []
  rw [hn, hloop]
  dsimp only []
  rw [if_pos hcheck]

/-- The lenient per-line decoder inverts the encoder on every chunk of
1-45 bytes. -/
theorem decode_uu_line_enc (c : List Nat) (h1 : c.length ≠ 0)
    (h45 : c.length ≤ 45) (hb : ∀ x ∈ c, x < 256) :
    decode_uu_line (uuLine c) = some c := by
  have hfil : (uuLine c).filter uuLineKeep = uuEncChar c.length :: uuGroups c := by
    have hself : (uuLine c).filter uuLineKeep = uuLine c :=
      List.filter_eq_self.mpr
        (fun x hx => by
          obtain ⟨v, rfl⟩ := uuLine_mem c x hx
          exact uuLineKeep_enc v)
    exact hself
  rw [decode_uu_line_eq (uuLine c) _ _ hfil]
  rw [uuEncChar_toNat]
  rw [show (32 + c.length % 64 - 32) % 64 = c.length by omega]
  rw [List.take_succ_cons]
  rw [uuGroups_eq_min_pad]
  rw [show (c.length * 4 + 5) / 3 = (uuGroupsMin c).length + 1 by
    rw [uuGroupsMin_length]; omega]
  rw [List.take_append]
  rw [List.map_cons, List.map_append]
  rw [a2b_uu_eval _ _ c _
    (show (((uuEncChar c.length).toNat + 256 - 32) % 256) % 64 = c.length by
      rw [uuEncChar_toNat]; omega)
    (by
      rw [a2bLoop_minGroups c hb ((List.take 1 (uuPad c)).map Char.toNat) []]
      rw [List.nil_append])
    (by
      rw [show 1 + (c.length * 8 + 5) / 6 =
          ((uuGroupsMin c).map Char.toNat).length + 0 + 1 by
        rw [List.length_map, uuGroupsMin_length]; omega]
      rw [List.drop_succ_cons]
      rw [List.drop_left]
      rw [List.all_eq_true]
      intro x hx
      obtain ⟨y, hy, rfl⟩ := List.mem_map.mp hx
      have hy0 : y = uuEncChar 0 := uuPad_mem c y (List.mem_of_mem_take hy)
      rw [hy0, uuEncChar_toNat]
      rfl)]

/-- An ASCII lead byte decodes to its code point in one step. -/
theorem utf8DecodeOne_ascii (b : Nat) (bs : List Nat) (hb : b < 128) :
    utf8DecodeOne b bs = some (Char.ofNat b, bs) := by
  unfold utf8DecodeOne
  rw [if_pos hb]

/-- The fuel-driven decoder on all-ASCII byte lists. -/
theorem utf8DecodeGo_ascii : ∀ (bs : List Nat) (fuel : Nat),
    bs.length ≤ fuel → (∀ x ∈ bs, x < 128) →
    utf8DecodeGo fuel bs = some (bs.map Char.ofNat) := by
  intro bs
  induction bs with
  | nil =>
      intro fuel _ _
      cases fuel <;> rfl
  | cons b rest ih =>
      intro fuel hf hb
      cases fuel with
      | zero => simp at hf
      | succ fuel =>
          rw [utf8DecodeGo]
          rw [utf8DecodeOne_ascii b rest (hb b (by simp))]
          dsimp only []
          rw [ih fuel (by simp only [List.length_cons] at hf; omega)
            (fun x hx => hb x (by simp [hx]))]
          rfl

/-- ASCII encoding is the plain code-point map. -/
theorem utf8Encode_ascii : ∀ s : List Char, (∀ c ∈ s, c.toNat < 128) →
    utf8Encode s = s.map Char.toNat := by
  intro s
  induction s with
  | nil => intro _; rfl
  | cons c cs ih =>
      intro h
      have hc : c.toNat < 128 := h c (by simp)
      unfold utf8Encode
      rw [List.map_cons, List.flatten_cons]
      rw [show utf8EncodeChar c = [c.toNat] by
        unfold utf8EncodeChar
        dsimp only []
        rw [if_pos hc]]
      rw [show (List.map utf8EncodeChar cs).flatten = utf8Encode cs from rfl]
      rw [ih (fun x hx => h x (by simp [hx]))]
      rfl

/-- ASCII strings survive the UTF-8 encode/decode round trip. -/
theorem utf8Decode?_ascii (s : List Char) (h : ∀ c ∈ s, c.toNat < 128) :
    utf8Decode? (utf8Encode s) = some s := by
  rw [utf8Encode_ascii s h]
  unfold utf8Decode?
  rw [utf8DecodeGo_ascii (s.map Char.toNat) _ (by rw [List.length_map])
    (by
      intro x hx
      obtain ⟨c, hc, rfl⟩ := List.mem_map.mp hx
      exact h c hc)]
  have hid : ∀ t : List Char, (∀ c ∈ t, c.toNat < 128) →
      (t.map Char.toNat).map Char.ofNat = t := by
    intro t
    induction t with
    | nil => intro _; rfl
    | cons c cs ih =>
        intro ht
        rw [List.map_cons, List.map_cons, Char.ofNat_toNat,
          ih (fun x hx => ht x (by simp [hx]))]
  rw [hid s h]

/-- `uuBytesToText` undoes `utf8Encode` on ASCII text. -/
theorem uuBytesToText_enc (s : List Char) (h : ∀ c ∈ s, c.toNat < 128) :
    uuBytesToText (utf8Encode s) = s := by
  unfold uuBytesToText
  rw [utf8Decode?_ascii s h]

/-- Splitting after one `'\n'`-free line. -/
theorem splitNl_append : ∀ (l rest : List Char), '\n' ∉ l →
    splitNl (l ++ '\n' :: rest) = l :: splitNl rest := by
  intro l
  induction l with
  | nil =>
      intro rest _
      rw [List.nil_append, splitNl]
      rw [if_pos rfl]
  | cons c l' ih =>
      intro rest h
      have hc : ¬ c = '\n' := fun he => h (by simp [he])
      rw [List.cons_append, splitNl]
      rw [if_neg hc]
      rw [ih rest (fun hx => h (by simp [hx]))]

/-- Splitting a whole `'\n'`-joined text. -/
theorem splitNl_join : ∀ ls : List (List Char), (∀ l ∈ ls, '\n' ∉ l) →
    splitNl (joinLines ls) = ls ++ [[]] := by
  intro ls
  induction ls with
  | nil => intro _; rfl
  | cons l ls ih =>
      intro h
      rw [show joinLines (l :: ls) = l ++ '\n' :: joinLines ls by
        unfold joinLines
        rw [List.map_cons, List.flatten_cons, List.append_assoc]
        rfl]
      rw [splitNl_append l _ (h l (by simp))]
      rw [ih (fun x hx => h x (by simp [hx]))]
      rfl

/-- `stripOneCR` is the identity on CR-free lines. -/
theorem stripOneCR_eq (l : List Char) (h : '\r' ∉ l) : stripOneCR l = l := by
  unfold stripOneCR
  rw [if_neg]
  intro he
  exact h (List.mem_of_getLast?_eq_some he)

/-- `stripTrailingCRs` is the identity on CR-free lines. -/
theorem stripTrailingCRs_eq (l : List Char) (h : '\r' ∉ l) :
    stripTrailingCRs l = l := by
  unfold stripTrailingCRs
  have hrev : l.reverse.dropWhile (· = '\r') = l.reverse := by
    cases hr : l.reverse with
    | nil => rfl
    | cons a as =>
        have ha : a ≠ '\r' := by
          intro he
          apply h
          have hm : a ∈ l.reverse := by rw [hr]; simp
          rw [List.mem_reverse] at hm
          rwa [he] at hm
        rw [List.dropWhile_cons, if_neg (by simp [ha])]
  rw [hrev, List.reverse_reverse]

/-- `rustLines` recovers the lines of a `'\n'`-joined CR-free text. -/
theorem rustLines_join (ls : List (List Char)) (h1 : ∀ l ∈ ls, '\n' ∉ l)
    (h2 : ∀ l ∈ ls, '\r' ∉ l) : rustLines (joinLines ls) = ls := by
  unfold rustLines
  rw [splitNl_join ls h1]
  dsimp only []
  rw [List.getLast?_concat]
  rw [if_pos rfl]
  rw [show (ls ++ [([] : List Char)]).dropLast = ls by simp]
  have hmap : ∀ ms : List (List Char), (∀ l' ∈ ms, '\r' ∉ l') →
      ms.map stripOneCR = ms := by
    intro ms
    induction ms with
    | nil => intro _; rfl
    | cons x xs ih =>
        intro hm
        rw [List.map_cons, stripOneCR_eq x (hm x (by simp)),
          ih (fun a ha => hm a (by simp [ha]))]
  exact hmap ls h2

/-- The data-line loop undoes the per-chunk encoding and stops at the
sentinel. -/
theorem processUu_chunks : ∀ chunks : List (List Nat),
    (∀ ch ∈ chunks, ch.length ≠ 0 ∧ ch.length ≤ 45 ∧ ∀ x ∈ ch, x < 256) →
    processUuDataLines (chunks.map uuLine ++ [['\x60'], ['e', 'n', 'd']]) =
      chunks.flatten := by
  intro chunks
  induction chunks with
  | nil => intro _; rfl
  | cons ch chs ih =>
      intro h
      obtain ⟨hne, h45, hbytes⟩ := h ch (by simp)
      have hnoCR : '\r' ∉ uuLine ch := by
        intro hx
        obtain ⟨v, hv⟩ := uuLine_mem ch '\r' hx
        exact uuEncChar_ne_cr v hv.symm
      rw [List.map_cons, List.cons_append, processUuDataLines]
      rw [stripTrailingCRs_eq (uuLine ch) hnoCR]
      rw [if_neg]
      · rw [decode_uu_line_enc ch hne h45 hbytes]
        rw [ih (fun a ha => h a (by simp [ha]))]
        rfl
      · intro hor
        cases hor with
        | inl he => simp [uuLine] at he
        | inr he =>
            have hh := congrArg List.head? he
            rw [show (uuLine ch).head? = some (uuEncChar ch.length) from rfl] at hh
            rw [show (['e', 'n', 'd'] : List Char).head? = some 'e' from rfl] at hh
            injection hh with hh
            have ht := congrArg Char.toNat hh
            rw [uuEncChar_toNat] at ht
            have he2 : ('e').toNat = 101 := rfl
            omega

/-- Flattening the 45-byte chunks restores the input. -/
theorem uuChunksGo_flatten : ∀ (fuel : Nat) (l : List Nat), l.length ≤ fuel →
    (uuChunksGo fuel l).flatten = l := by
  intro fuel
  induction fuel with
  | zero =>
      intro l hl
      cases l with
      | nil => rfl
      | cons b r => simp at hl
  | succ fuel ih =>
      intro l hl
      cases l with
      | nil => rfl
      | cons b rest =>
          rw [uuChunksGo, List.flatten_cons]
          rw [ih (rest.drop 44) (by
            simp only [List.length_drop]
            simp only [List.length_cons] at hl
            omega)]
          rw [List.cons_append, List.take_append_drop]

/-- Every 45-byte chunk is non-empty, short, and keeps the byte bound. -/
theorem uuChunksGo_mem : ∀ (fuel : Nat) (l : List Nat), (∀ x ∈ l, x < 256) →
    ∀ ch ∈ uuChunksGo fuel l,
      ch.length ≠ 0 ∧ ch.length ≤ 45 ∧ ∀ x ∈ ch, x < 256 := by
  intro fuel
  induction fuel with
  | zero => intro l _ ch hch; simp [uuChunksGo] at hch
  | succ fuel ih =>
      intro l hl ch hch
      cases l with
      | nil => simp [uuChunksGo] at hch
      | cons b rest =>
          rw [uuChunksGo] at hch
          rcases List.mem_cons.mp hch with rfl | hch
          · refine ⟨by simp, ?_, ?_⟩
            · simp only [List.length_cons, List.length_take]
              omega
            · intro x hx
              rcases List.mem_cons.mp hx with rfl | hx
              · exact hl x (by simp)
              · exact hl x (List.mem_cons_of_mem _ (List.mem_of_mem_take hx))
          · exact ih (rest.drop 44)
              (fun x hx => hl x (List.mem_cons_of_mem _ (List.mem_of_mem_drop hx)))
              ch hch

/-- C7: UU round-trip — encoding any byte string with the standard UU
algorithm modelled from the spec (begin line, count-prefixed data lines
of up to 45 bytes, backtick sentinel, `end` line, space-for-zero
alphabet) and decoding with the repository's lenient `decode_uuencoded`
returns exactly the original bytes. -/
theorem claim_C7_roundtrip (b : List Nat) (h : ∀ x ∈ b, x < 256) :
    decode_uuencoded (uuencode b) = b := by
  have hmemline : ∀ l ∈ ["begin 644 file".toList] ++ (uuChunks b).map uuLine ++
      [['\x60'], ['e', 'n', 'd']], '\n' ∉ l ∧ '\r' ∉ l ∧
      ∀ c ∈ l, c.toNat < 128 := by
    intro l hl
    rcases List.mem_append.mp hl with hl2 | hl2
    · rcases List.mem_append.mp hl2 with hl3 | hl3
      · rw [List.mem_singleton] at hl3
        subst hl3
        refine ⟨by decide, by decide, by decide⟩
      · obtain ⟨ch, _, rfl⟩ := List.mem_map.mp hl3
        refine ⟨?_, ?_, ?_⟩
        · intro hx
          obtain ⟨v, hv⟩ := uuLine_mem ch '\n' hx
          exact uuEncChar_ne_lf v hv.symm
        · intro hx
          obtain ⟨v, hv⟩ := uuLine_mem ch '\r' hx
          exact uuEncChar_ne_cr v hv.symm
        · intro c hc
          obtain ⟨v, rfl⟩ := uuLine_mem ch c hc
          exact uuEncChar_ascii v
    · rcases List.mem_cons.mp hl2 with rfl | hl3
      · refine ⟨by decide, by decide, by decide⟩
      · rw [List.mem_singleton] at hl3
        subst hl3
        refine ⟨by decide, by decide, by decide⟩
  have hascii : ∀ c ∈ uuencodeText b, c.toNat < 128 := by
    intro c hc
    unfold uuencodeText joinLines at hc
    obtain ⟨seg, hseg, hcseg⟩ := List.mem_flatten.mp hc
    obtain ⟨l, hlmem, rfl⟩ := List.mem_map.mp hseg
    rcases List.mem_append.mp hcseg with hcl | hcl
    · exact (hmemline l hlmem).2.2 c hcl
    · rw [List.mem_singleton] at hcl
      subst hcl
      decide
  unfold decode_uuencoded uuencode
  rw [uuBytesToText_enc _ hascii]
  unfold uuencodeText
  rw [rustLines_join _ (fun l hl => (hmemline l hl).1)
    (fun l hl => (hmemline l hl).2.1)]
  rw [show ["begin 644 file".toList] ++ (uuChunks b).map uuLine ++
      [['\x60'], ['e', 'n', 'd']] = "begin 644 file".toList ::
      ((uuChunks b).map uuLine ++ [['\x60'], ['e', 'n', 'd']]) by simp]
  rw [findBeginLine]
  rw [if_pos (by decide)]
  dsimp only []
  rw [processUu_chunks (uuChunks b) (fun ch hch =>
    uuChunksGo_mem b.length b h ch hch)]
  unfold uuChunks
  exact uuChunksGo_flatten b.length b le_rfl

/-- Witness for C7: the spec's S5 example — `"Cat"` encodes to exactly
`"begin 644 file\n#0V%T\n\x60\nend\n"` and decodes back to `"Cat"`. -/
theorem claim_C7_witness :
    (∀ x ∈ [67, 97, 116], x < 256) ∧
    uuencode [67, 97, 116] = strBytes "begin 644 file\n#0V%T\n\x60\nend\n" ∧
    decode_uuencoded (uuencode [67, 97, 116]) = [67, 97, 116] :=
  ⟨by decide, by decide, claim_C7_roundtrip [67, 97, 116] (by decide)⟩

end Secsgml
